import Mathlib

/-!
Verification of the padlock K-of-N threshold one-time-pad core
(rayozzie/padlock, files pkg/pad/pad.go and pkg/rng/rng.go) against its
natural-language specification.

Shallow embedding conventions:
- A Go byte is a Nat (values kept below 256 where the code guarantees it);
  a Go string or byte slice is a GoStr, i.e. a List Nat of byte values.
- Go int values reaching strconv are modelled as unbounded Int together with
  the explicit int64 range check that strconv.Atoi performs.
- The fallible Go functions return Option or Except; every distinct Go error
  return is a distinct constructor or a none.
- Loops whose termination is not structurally evident (the encoder main loop,
  the decoder chunk loop, the RNG retry loop) are modelled with an explicit
  fuel parameter returning none when the fuel is exhausted; the top-level
  entry points instantiate the fuel with a bound that suffices for every
  terminating execution of the Go code.
- The random source handed to the encoder is an infinite byte stream
  modelled as a function from positions to byte values; the encoder threads
  the next unread position through its calls.
- Chunk sinks produced by the newChunk callback are modelled as pure byte
  accumulators whose Write always succeeds and whose Close reports an error
  exactly when a caller-chosen flag is set; pad.go line 1169 discards the
  result of Close, which the model mirrors.
- Go map iteration order over the cipher map is unspecified; the model fixes
  the generation order of the subset keys.  Only which random bytes feed
  which subset depends on this choice, and every theorem below quantifies
  over the whole random stream.
-/

namespace Padlock

/-- GoStr models a Go string or byte slice as the list of its byte values. -/
abbrev GoStr := List Nat

/-- xorBytes models the byte-wise XOR loops of pad.go, which always run over
two buffers of equal length. -/
def xorBytes (a b : GoStr) : GoStr := List.zipWith Nat.xor a b

theorem length_xorBytes (a b : GoStr) :
    (xorBytes a b).length = min a.length b.length := by
  simp [xorBytes]

theorem xorBytes_assoc (a b c : GoStr) :
    xorBytes (xorBytes a b) c = xorBytes a (xorBytes b c) := by
  induction a generalizing b c with
  | nil => simp [xorBytes]
  | cons x xs ih =>
    cases b with
    | nil => simp [xorBytes]
    | cons y ys =>
      cases c with
      | nil => simp [xorBytes]
      | cons z zs =>
        simp only [xorBytes, List.zipWith] at ih ⊢
        exact congrArg₂ List.cons (Nat.xor_assoc x y z) (ih ys zs)

theorem xorBytes_self (a : GoStr) : xorBytes a a = List.replicate a.length 0 := by
  induction a with
  | nil => rfl
  | cons x xs ih =>
    show (x ^^^ x) :: xorBytes xs xs = List.replicate (xs.length + 1) 0
    rw [Nat.xor_self, ih]
    rfl

theorem xorBytes_zero_left (a : GoStr) (n : Nat) (h : a.length = n) :
    xorBytes (List.replicate n 0) a = a := by
  induction a generalizing n with
  | nil => simp [xorBytes]
  | cons x xs ih =>
    cases n with
    | zero => simp at h
    | succ m =>
      show ((0 : Nat) ^^^ x) :: xorBytes (List.replicate m 0) xs = x :: xs
      rw [Nat.zero_xor, ih m (by simpa using h)]

theorem xorBytes_zero_right (a : GoStr) (n : Nat) (h : a.length = n) :
    xorBytes a (List.replicate n 0) = a := by
  induction a generalizing n with
  | nil => simp [xorBytes]
  | cons x xs ih =>
    cases n with
    | zero => simp at h
    | succ m =>
      show (x ^^^ (0 : Nat)) :: xorBytes xs (List.replicate m 0) = x :: xs
      rw [Nat.xor_zero, ih m (by simpa using h)]

theorem foldl_xorBytes_pull (l : List GoStr) (a b : GoStr) :
    List.foldl xorBytes (xorBytes a b) l = xorBytes a (List.foldl xorBytes b l) := by
  induction l generalizing b with
  | nil => rfl
  | cons c t ih =>
    simp only [List.foldl_cons]
    rw [xorBytes_assoc, ih]

theorem length_foldl_xorBytes (l : List GoStr) (a : GoStr) (n : Nat)
    (ha : a.length = n) (hl : ∀ x ∈ l, x.length = n) :
    (List.foldl xorBytes a l).length = n := by
  induction l generalizing a with
  | nil => simpa using ha
  | cons c t ih =>
    simp only [List.foldl_cons]
    refine ih (xorBytes a c) ?_ (fun x hx => hl x (List.mem_cons_of_mem _ hx))
    rw [length_xorBytes, ha, hl c (List.mem_cons_self _ _), Nat.min_self]

theorem foldl_xorBytes_cancel (l : List GoStr) (a : GoStr)
    (hl : ∀ x ∈ l, x.length = a.length) :
    List.foldl xorBytes (List.foldl xorBytes a l) l = a := by
  induction l generalizing a with
  | nil => rfl
  | cons p t ih =>
    have hp : p.length = a.length := hl p (List.mem_cons_self _ _)
    have ht : ∀ x ∈ t, x.length = a.length :=
      fun x hx => hl x (List.mem_cons_of_mem _ hx)
    have htp : ∀ x ∈ t, x.length = (xorBytes a p).length := by
      intro x hx
      rw [length_xorBytes, hp, Nat.min_self, ht x hx]
    have hFp : (List.foldl xorBytes p t).length = a.length :=
      length_foldl_xorBytes t p a.length hp ht
    simp only [List.foldl_cons]
    rw [foldl_xorBytes_pull t a p,
      foldl_xorBytes_pull t (xorBytes a (List.foldl xorBytes p t)) p,
      xorBytes_assoc, xorBytes_self]
    exact xorBytes_zero_right a _ hFp.symm

theorem flatten_length_uniform (L : List GoStr) (B : Nat)
    (h : ∀ x ∈ L, x.length = B) : L.flatten.length = L.length * B := by
  induction L with
  | nil => simp
  | cons x t ih =>
    simp only [List.flatten_cons, List.length_append, List.length_cons]
    rw [h x (List.mem_cons_self _ _), ih (fun y hy => h y (List.mem_cons_of_mem _ hy))]
    ring

theorem flatten_slice_uniform (L : List GoStr) (B : Nat)
    (h : ∀ x ∈ L, x.length = B) (i : Nat) (hi : i < L.length) :
    (L.flatten.drop (i * B)).take B = L.getD i [] := by
  induction L generalizing i with
  | nil => simp at hi
  | cons x t ih =>
    cases i with
    | zero =>
      simp only [Nat.zero_mul, List.drop_zero, List.flatten_cons, List.getD_cons_zero]
      rw [← h x (List.mem_cons_self _ _)]
      exact List.take_left x t.flatten
    | succ j =>
      have hx : x.length = B := h x (List.mem_cons_self _ _)
      simp only [List.flatten_cons, List.getD_cons_succ]
      have hdrop : ((x ++ t.flatten).drop ((j + 1) * B)) = t.flatten.drop (j * B) := by
        rw [Nat.succ_mul, Nat.add_comm (j * B) B, ← hx, List.drop_append_eq_append_drop]
        simp [hx]
      rw [hdrop]
      exact ih (fun y hy => h y (List.mem_cons_of_mem _ hy)) j (by simpa using hi)

theorem getD_map_range (l : List GoStr) :
    (List.range l.length).map (fun i => l.getD i []) = l := by
  induction l with
  | nil => rfl
  | cons x t ih =>
    rw [List.length_cons, List.range_succ_eq_map, List.map_cons, List.map_map]
    have h2 : ((fun i => (x :: t).getD i []) ∘ Nat.succ) = fun i => t.getD i [] := by
      funext i
      simp [List.getD_cons_succ]
    rw [h2, ih]
    rfl

theorem getD_mem_of_lt {α : Type} (l : List α) (i : Nat) (d : α)
    (h : i < l.length) : l.getD i d ∈ l := by
  induction l generalizing i with
  | nil => simp at h
  | cons x t ih =>
    cases i with
    | zero => simp
    | succ j =>
      simp only [List.getD_cons_succ]
      exact List.mem_cons_of_mem _ (ih j (by simpa using h))

/-- findIdx? of the element at a given position in a list whose elements are
pairwise distinct returns exactly that position. -/
theorem findIdx?_getD_pairwise {α : Type} [DecidableEq α] (l : List α) (d : α)
    (hnd : List.Pairwise (fun a b => a ≠ b) l) (i : Nat) (hi : i < l.length) :
    l.findIdx? (fun x => x = l.getD i d) = some i := by
  induction l generalizing i with
  | nil => simp at hi
  | cons x t ih =>
    cases i with
    | zero => simp [List.findIdx?_cons]
    | succ j =>
      have hj : j < t.length := by simpa using hi
      have hne : x ≠ t.getD j d := by
        have := (List.pairwise_cons.mp hnd).1
        exact this _ (getD_mem_of_lt t j d hj)
      simp only [List.getD_cons_succ, List.findIdx?_cons]
      rw [if_neg (by simpa using hne)]
      have hrec := ih (List.pairwise_cons.mp hnd).2 j hj
      rw [List.findIdx?_succ, hrec]
      rfl

/-- findIdx? of an equality test succeeds at the first occurrence, which is
the sought element itself. -/
theorem findIdx?_eq_mem {α : Type} [DecidableEq α] (l : List α) (s d : α)
    (hs : s ∈ l) :
    ∃ t, l.findIdx? (fun x => x = s) = some t ∧ t < l.length ∧ l.getD t d = s := by
  induction l with
  | nil => simp at hs
  | cons x xs ih =>
    by_cases hx : x = s
    · exact ⟨0, by simp [List.findIdx?_cons, hx], by simp, by simp [hx]⟩
    · have hs' : s ∈ xs := by
        rcases List.mem_cons.mp hs with h | h
        · exact absurd h.symm hx
        · exact h
      obtain ⟨t, ht, htl, hget⟩ := ih hs'
      refine ⟨t + 1, ?_, by simpa using htl, by simpa using hget⟩
      rw [List.findIdx?_cons, if_neg (by simpa using hx), List.findIdx?_succ, ht]
      rfl

/-! Decimal formatting and parsing (strconv.Itoa via fmt %d, strconv.Atoi). -/

/-- isDigitByte models unicode.IsDigit on a single byte value, which holds
exactly for the ASCII digits. -/
def isDigitByte (c : Nat) : Bool := 48 ≤ c && c ≤ 57

/-- digitsVal is the numeric value of a string of ASCII digit bytes, most
significant first, as accumulated by strconv.ParseInt. -/
def digitsVal (s : GoStr) : Nat := s.foldl (fun a c => 10 * a + (c - 48)) 0

/-- toDecimalAux writes a positive number in decimal, most significant digit
first; the fuel argument only serves structural termination and any fuel at
least the number itself is sufficient. -/
def toDecimalAux : Nat → Nat → GoStr
  | 0, _ => []
  | _ + 1, 0 => []
  | fuel + 1, n => toDecimalAux fuel (n / 10) ++ [48 + n % 10]

/-- itoa models the decimal rendering of a nonnegative Go int by fmt %d or
strconv.Itoa. -/
def itoa (n : Nat) : GoStr := if n = 0 then [48] else toDecimalAux n n

/-- int64MaxNat is the largest value of the Go type int on a 64-bit platform. -/
def int64MaxNat : Nat := 2 ^ 63 - 1

/-- atoiCore models the digit-accumulation phase of strconv.ParseInt in base
10 with bitSize 0 (64-bit int), including its range check. -/
def atoiCore (t : GoStr) (neg : Bool) : Option Int :=
  if t = [] then none
  else if t.all isDigitByte then
    if (digitsVal t : Int) ≤ int64MaxNat + (if neg then 1 else 0) then
      some (if neg then -(digitsVal t : Int) else (digitsVal t : Int))
    else none
  else none

/-- atoi models strconv.Atoi: an optional single leading plus or minus sign
followed by one or more decimal digits, rejecting values outside the 64-bit
int range. -/
def atoi (s : GoStr) : Option Int :=
  match s with
  | [] => none
  | c :: t =>
    if c = 43 then atoiCore t false
    else if c = 45 then atoiCore t true
    else atoiCore (c :: t) false

theorem toDecimalAux_all_digits (fuel n : Nat) :
    ∀ c ∈ toDecimalAux fuel n, isDigitByte c = true := by
  induction fuel generalizing n with
  | zero => intro c hc; simp [toDecimalAux] at hc
  | succ f ih =>
    intro c hc
    cases n with
    | zero => simp [toDecimalAux] at hc
    | succ m =>
      have hc2 : c ∈ toDecimalAux f ((m + 1) / 10) ++ [48 + (m + 1) % 10] := hc
      rcases List.mem_append.mp hc2 with h | h
      · exact ih _ c h
      · have : c = 48 + (m + 1) % 10 := by simpa using h
        subst this
        have : (m + 1) % 10 < 10 := Nat.mod_lt _ (by omega)
        simp [isDigitByte]
        omega

theorem digitsVal_append_digit (a : GoStr) (c : Nat) :
    digitsVal (a ++ [c]) = 10 * digitsVal a + (c - 48) := by
  simp [digitsVal, List.foldl_append]

theorem toDecimalAux_val (fuel n : Nat) (h : n ≤ fuel) :
    digitsVal (toDecimalAux fuel n) = n := by
  induction fuel generalizing n with
  | zero =>
    have : n = 0 := Nat.le_zero.mp h
    subst this
    rfl
  | succ f ih =>
    cases n with
    | zero => rfl
    | succ m =>
      show digitsVal (toDecimalAux f ((m + 1) / 10) ++ [48 + (m + 1) % 10]) = m + 1
      rw [digitsVal_append_digit]
      have hdiv : (m + 1) / 10 ≤ f := by
        have : (m + 1) / 10 < m + 1 := Nat.div_lt_self (by omega) (by omega)
        omega
      rw [ih _ hdiv]
      omega

theorem toDecimalAux_ne_nil (fuel n : Nat) (hn : 1 ≤ n) (hf : 1 ≤ fuel) :
    toDecimalAux fuel n ≠ [] := by
  cases fuel with
  | zero => omega
  | succ f =>
    cases n with
    | zero => omega
    | succ m =>
      show toDecimalAux f ((m + 1) / 10) ++ [48 + (m + 1) % 10] ≠ []
      simp

theorem toDecimalAux_length (fuel n k : Nat) (h : n < 10 ^ k) :
    (toDecimalAux fuel n).length ≤ k := by
  induction fuel generalizing n k with
  | zero => simp [toDecimalAux]
  | succ f ih =>
    cases n with
    | zero => simp [toDecimalAux]
    | succ m =>
      cases k with
      | zero => simp at h
      | succ j =>
        show (toDecimalAux f ((m + 1) / 10) ++ [48 + (m + 1) % 10]).length ≤ j + 1
        have hdiv : (m + 1) / 10 < 10 ^ j := by
          rw [Nat.div_lt_iff_lt_mul (by omega)]
          calc m + 1 < 10 ^ (j + 1) := h
          _ = 10 ^ j * 10 := by ring
        have := ih ((m + 1) / 10) j hdiv
        simp only [List.length_append, List.length_cons, List.length_nil]
        omega

theorem itoa_all_digits (n : Nat) : ∀ c ∈ itoa n, isDigitByte c = true := by
  intro c hc
  by_cases h : n = 0
  · subst h
    simp [itoa] at hc
    subst hc
    decide
  · rw [itoa, if_neg h] at hc
    exact toDecimalAux_all_digits n n c hc

theorem itoa_ne_nil (n : Nat) : itoa n ≠ [] := by
  by_cases h : n = 0
  · subst h; simp [itoa]
  · rw [itoa, if_neg h]
    exact toDecimalAux_ne_nil n n (by omega) (by omega)

theorem digitsVal_itoa (n : Nat) : digitsVal (itoa n) = n := by
  by_cases h : n = 0
  · subst h; rfl
  · rw [itoa, if_neg h]
    exact toDecimalAux_val n n (Nat.le_refl n)

theorem itoa_length_le (n k : Nat) (hk : 1 ≤ k) (h : n < 10 ^ k) :
    (itoa n).length ≤ k := by
  by_cases h0 : n = 0
  · subst h0; simpa [itoa] using hk
  · rw [itoa, if_neg h0]
    exact toDecimalAux_length n n k h

theorem atoi_of_digits (s : GoStr) (hne : s ≠ []) (hdig : s.all isDigitByte = true)
    (hrange : digitsVal s ≤ int64MaxNat) : atoi s = some ((digitsVal s : Int)) := by
  cases s with
  | nil => exact absurd rfl hne
  | cons c t =>
    have hc : isDigitByte c = true := by
      have := List.all_eq_true.mp hdig c (List.mem_cons_self _ _)
      exact this
    have hc48 : 48 ≤ c ∧ c ≤ 57 := by
      simpa [isDigitByte, Bool.and_eq_true, decide_eq_true_eq] using hc
    rw [atoi, if_neg (by omega), if_neg (by omega)]
    rw [atoiCore, if_neg (by simp), if_pos hdig, if_pos (by push_cast; omega)]
    simp

theorem atoi_itoa (n : Nat) (h : n ≤ int64MaxNat) : atoi (itoa n) = some ((n : Int)) := by
  rw [atoi_of_digits (itoa n) (itoa_ne_nil n)
    (List.all_eq_true.mpr (itoa_all_digits n)) (by rw [digitsVal_itoa]; exact h)]
  rw [digitsVal_itoa]

theorem itoa_no_colon (n : Nat) : (58 : Nat) ∉ itoa n := by
  intro h
  have := itoa_all_digits n 58 h
  simp [isDigitByte] at this

/-! strings.Split with a single-byte separator. -/

/-- splitOnByte models strings.Split with a one-byte separator: it cuts the
string at every occurrence of the separator, keeping empty fields. -/
def splitOnByte (sep : Nat) : GoStr → List GoStr
  | [] => [[]]
  | c :: rest =>
    if c = sep then [] :: splitOnByte sep rest
    else
      match splitOnByte sep rest with
      | [] => [[c]]
      | h :: t => (c :: h) :: t

theorem splitOnByte_ne_nil (sep : Nat) (l : GoStr) : splitOnByte sep l ≠ [] := by
  cases l with
  | nil => simp [splitOnByte]
  | cons c rest =>
    rw [splitOnByte]
    by_cases h : c = sep
    · simp [h]
    · rw [if_neg h]
      cases splitOnByte sep rest with
      | nil => simp
      | cons h2 t2 => simp

theorem splitOnByte_no_sep (sep : Nat) (l : GoStr) (h : sep ∉ l) :
    splitOnByte sep l = [l] := by
  induction l with
  | nil => rfl
  | cons c rest ih =>
    have hc : c ≠ sep := fun hc => h (hc ▸ List.mem_cons_self _ _)
    rw [splitOnByte, if_neg hc, ih (fun hm => h (List.mem_cons_of_mem _ hm))]

theorem splitOnByte_append_sep (sep : Nat) (a r : GoStr) (h : sep ∉ a) :
    splitOnByte sep (a ++ sep :: r) = a :: splitOnByte sep r := by
  induction a with
  | nil => simp [splitOnByte]
  | cons c t ih =>
    have hc : c ≠ sep := fun hc => h (hc ▸ List.mem_cons_self _ _)
    rw [List.cons_append, splitOnByte, if_neg hc,
      ih (fun hm => h (List.mem_cons_of_mem _ hm))]

/-! Collection labels and chunk names (pad.go lines 860 to 977). -/

/-- collectionLetterFromIndex models pad.go line 945: the single-letter
string of the i-th collection; the source panics for i outside 0..25 and all
call sites keep i below 26. -/
def collectionLetterFromIndex (i : Nat) : GoStr := [65 + i]

/-- buildCollectionLabel models pad.go line 860: the label string
requiredCopies, letter, totalCopies rendered with fmt %d%s%d. -/
def buildCollectionLabel (requiredCopies totalCopies : Nat) (collLetter : GoStr) : GoStr :=
  itoa requiredCopies ++ collLetter ++ itoa totalCopies

/-- extractFromCollectionLabel models pad.go lines 866 to 910: scan the
leading digits, take the next byte as the collection letter, parse the rest
with strconv.Atoi, and validate totalCopies in 2..26, requiredCopies in
2..totalCopies and the letter within the first totalCopies letters. -/
def extractFromCollectionLabel (label : GoStr) : Option (Nat × Nat × GoStr) :=
  if label.length < 3 then none
  else
    let i := (label.takeWhile isDigitByte).length
    if i = 0 ∨ label.length - 1 ≤ i then none
    else
      match atoi (label.take i), atoi (label.drop (i + 1)) with
      | some rq, some tc =>
        let letterChar := (label.drop i).headD 0
        if tc < 2 ∨ 26 < tc then none
        else if rq < 2 ∨ tc < rq then none
        else if (letterChar : Int) < 65 ∨ 65 + tc - 1 < (letterChar : Int) then none
        else some (rq.toNat, tc.toNat, [letterChar])
      | _, _ => none

/-- buildChunkName models pad.go line 953: label, chunk number and chunk
data size joined with colons. -/
def buildChunkName (collName : GoStr) (chunkNumber chunkDataBytes : Nat) : GoStr :=
  collName ++ 58 :: itoa chunkNumber ++ 58 :: itoa chunkDataBytes

/-- extractFromChunkName models pad.go lines 958 to 977: split on colons
into exactly three fields and require the chunk number and the chunk data
size to be positive integers. -/
def extractFromChunkName (chunkName : GoStr) : Option (GoStr × Nat × Nat) :=
  match splitOnByte 58 chunkName with
  | [p0, p1, p2] =>
    match atoi p1 with
    | none => none
    | some n =>
      if n ≤ 0 then none
      else
        match atoi p2 with
        | none => none
        | some b => if b ≤ 0 then none else some (p0, n.toNat, b.toNat)
  | _ => none

/-- permutationIndexFn models pad.go lines 931 to 942: the index of a
one-letter collection string within the byte sequence of a subset
identifier, or an error when absent. -/
def permutationIndexFn (permutation : GoStr) (collLetter : GoStr) : Option Nat :=
  if collLetter.length ≠ 1 then none
  else permutation.findIdx? (fun letter => letter = collLetter.headD 0)

theorem extractFromChunkName_build (collName : GoStr) (n b : Nat)
    (hcol : (58 : Nat) ∉ collName) (hn : 1 ≤ n) (hnr : n ≤ int64MaxNat)
    (hb : 1 ≤ b) (hbr : b ≤ int64MaxNat) :
    extractFromChunkName (buildChunkName collName n b) = some (collName, n, b) := by
  have hform : buildChunkName collName n b
      = collName ++ (58 :: (itoa n ++ (58 :: itoa b))) := by
    simp [buildChunkName]
  have hsplit : splitOnByte 58 (buildChunkName collName n b)
      = [collName, itoa n, itoa b] := by
    rw [hform, splitOnByte_append_sep 58 collName _ hcol,
      splitOnByte_append_sep 58 (itoa n) _ (itoa_no_colon n),
      splitOnByte_no_sep 58 (itoa b) (itoa_no_colon b)]
  rw [extractFromChunkName, hsplit]
  simp only [atoi_itoa n hnr, atoi_itoa b hbr]
  rw [if_neg (by omega), if_neg (by omega)]
  simp

/-! K-subset enumeration (UniqueSortedCombinations, pad.go lines 983 to
1020) and the Pad structure (PadInit, pad.go lines 814 to 857). -/

/-- combs models the recursive combination generator comb inside
UniqueSortedCombinations: all k-element subsequences of the given list, in
the order the Go recursion appends them to allCombos. -/
def combs {α : Type} : Nat → List α → List (List α)
  | 0, _ => [[]]
  | _ + 1, [] => []
  | k + 1, x :: xs => ((combs k xs).map (fun c => x :: c)) ++ combs (k + 1) xs

/-- collectionLabels models the labels slice of UniqueSortedCombinations:
the single-letter strings of the first N collections. -/
def collectionLabels (N : Nat) : List GoStr :=
  (List.range N).map collectionLetterFromIndex

/-- allCombos models the allCombos slice of UniqueSortedCombinations. -/
def allCombos (K N : Nat) : List (List GoStr) := combs K (collectionLabels N)

/-- participating models the per-label entry of the result map of
UniqueSortedCombinations: the joined identifiers of the subsets containing
the label, sorted ascending by sort.Strings.  A label that appears in no
subset has the empty list, which is exactly when the Go map lookup reports
the key as absent. -/
def participating (K N : Nat) (label : GoStr) : List GoStr :=
  List.insertionSort (fun a b => a ≤ b)
    (((allCombos K N).filter (fun combo => label ∈ combo)).map List.flatten)

/-- cipherKeys models the key set of the uniqueMap of
UniqueSortedCombinations; Go map iteration order is unspecified, and the
model fixes the generation order of allCombos. -/
def cipherKeys (K N : Nat) : List GoStr := (allCombos K N).map List.flatten

/-- UniqueSortedCombinationsCount models the first return value of
UniqueSortedCombinations: the length of the participating list of the first
label. -/
def UniqueSortedCombinationsCount (K N : Nat) : Nat :=
  (participating K N (collectionLetterFromIndex 0)).length

/-- Pad models the Pad structure together with the values PadInit derives
from it; the Permutations map is modelled as a total function whose value on
absent keys is the empty list. -/
structure Pad where
  TotalCopies : Nat
  RequiredCopies : Nat
  Collections : List GoStr
  PermutationCount : Nat
  Permutations : GoStr → List GoStr
  CipherKeys : List GoStr

/-- padMk is the Pad value PadInit constructs once its parameter checks
pass. -/
def padMk (totalCopies requiredCopies : Nat) : Pad where
  TotalCopies := totalCopies
  RequiredCopies := requiredCopies
  Collections := (List.range totalCopies).map
    (fun i => buildCollectionLabel requiredCopies totalCopies (collectionLetterFromIndex i))
  PermutationCount := UniqueSortedCombinationsCount requiredCopies totalCopies
  Permutations := fun label => participating requiredCopies totalCopies label
  CipherKeys := cipherKeys requiredCopies totalCopies

/-- PadInit models pad.go lines 814 to 857: validate that totalCopies lies
in 2..26 and requiredCopies in 2..totalCopies, then derive the collection
labels and the subset tables. -/
def PadInit (totalCopies requiredCopies : Nat) : Option Pad :=
  if totalCopies < 2 ∨ 26 < totalCopies then none
  else if requiredCopies < 2 then none
  else if totalCopies < requiredCopies then none
  else some (padMk totalCopies requiredCopies)

theorem mem_combs {α : Type} (k : Nat) (l : List α) (c : List α) :
    c ∈ combs k l ↔ c.Sublist l ∧ c.length = k := by
  induction l generalizing k c with
  | nil =>
    cases k with
    | zero =>
      simp only [combs, List.mem_singleton]
      constructor
      · rintro rfl; exact ⟨List.Sublist.refl _, rfl⟩
      · rintro ⟨hs, hl⟩
        exact List.length_eq_zero.mp hl
    | succ j =>
      simp only [combs, List.not_mem_nil, false_iff, not_and]
      intro hs
      have : c = [] := List.sublist_nil.mp hs
      subst this
      simp
  | cons x xs ih =>
    cases k with
    | zero =>
      simp only [combs, List.mem_singleton]
      constructor
      · rintro rfl; exact ⟨List.nil_sublist _, rfl⟩
      · rintro ⟨hs, hl⟩
        exact List.length_eq_zero.mp hl
    | succ j =>
      rw [combs]
      simp only [List.mem_append, List.mem_map]
      constructor
      · rintro (⟨c2, hc2, rfl⟩ | hc)
        · obtain ⟨hs, hl⟩ := (ih j c2).mp hc2
          exact ⟨List.Sublist.cons₂ x hs, by simpa using hl⟩
        · obtain ⟨hs, hl⟩ := (ih (j + 1) c).mp hc
          exact ⟨hs.trans (List.sublist_cons_self x xs), hl⟩
      · rintro ⟨hs, hl⟩
        rcases List.sublist_cons_iff.mp hs with hsub | ⟨r, rfl, hr⟩
        · exact Or.inr ((ih (j + 1) c).mpr ⟨hsub, hl⟩)
        · exact Or.inl ⟨r, (ih j r).mpr ⟨hr, by simpa using hl⟩, rfl⟩

theorem length_combs {α : Type} (k : Nat) (l : List α) :
    (combs k l).length = Nat.choose l.length k := by
  induction l generalizing k with
  | nil =>
    cases k with
    | zero => rfl
    | succ j => rfl
  | cons x xs ih =>
    cases k with
    | zero => rfl
    | succ j =>
      rw [combs]
      simp only [List.length_append, List.length_map, List.length_cons]
      rw [ih j, ih (j + 1), Nat.choose_succ_succ]

theorem nodup_combs {α : Type} (k : Nat) (l : List α) (h : l.Nodup) :
    (combs k l).Nodup := by
  induction l generalizing k with
  | nil =>
    cases k with
    | zero => simp [combs]
    | succ j => simp [combs]
  | cons x xs ih =>
    cases k with
    | zero => simp [combs]
    | succ j =>
      rw [combs]
      have hx : x ∉ xs := (List.nodup_cons.mp h).1
      have hxs : xs.Nodup := (List.nodup_cons.mp h).2
      rw [List.nodup_append]
      refine ⟨(ih j hxs).map (fun a b hab => by simpa using hab), ih (j + 1) hxs, ?_⟩
      intro c hc1 hc2
      obtain ⟨c2, _, rfl⟩ := List.mem_map.mp hc1
      have hs := ((mem_combs (j + 1) xs (x :: c2)).mp hc2).1
      have : x ∈ xs := hs.subset (List.mem_cons_self _ _)
      exact hx this

theorem countP_combs_mem {α : Type} [DecidableEq α] (x : α) :
    ∀ (l : List α) (k : Nat), x ∈ l → l.Nodup → 1 ≤ k →
    List.countP (fun c => decide (x ∈ c)) (combs k l)
      = Nat.choose (l.length - 1) (k - 1) := by
  intro l
  induction l with
  | nil => intro k hx; simp at hx
  | cons y xs ih =>
    intro k hx hnd hk
    obtain ⟨j, rfl⟩ : ∃ j, k = j + 1 := ⟨k - 1, by omega⟩
    have hy : y ∉ xs := (List.nodup_cons.mp hnd).1
    have hxs : xs.Nodup := (List.nodup_cons.mp hnd).2
    rw [combs, List.countP_append, List.countP_map]
    by_cases hxy : x = y
    · subst hxy
      have h1 : List.countP ((fun c => decide (x ∈ c)) ∘ (fun c => x :: c)) (combs j xs)
          = (combs j xs).length := by
        rw [List.countP_eq_length]
        intro c _
        simp
      have h2 : List.countP (fun c => decide (x ∈ c)) (combs (j + 1) xs) = 0 := by
        rw [List.countP_eq_zero]
        intro c hc
        have hs := ((mem_combs (j + 1) xs c).mp hc).1
        simp only [decide_eq_true_eq]
        intro hmem
        exact hy (hs.subset hmem)
      rw [h1, h2, length_combs]
      simp
    · have hx2 : x ∈ xs := by
        rcases List.mem_cons.mp hx with h | h
        · exact absurd h hxy
        · exact h
      have hcomp : ((fun c => decide (x ∈ c)) ∘ (fun c => y :: c))
          = fun c => decide (x ∈ c) := by
        funext c
        simp [List.mem_cons, hxy]
      rw [hcomp]
      have hlen1 : 1 ≤ xs.length := by
        cases xs with
        | nil => simp at hx2
        | cons a t => simp
      cases j with
      | zero =>
        have h1 : List.countP (fun c => decide (x ∈ c)) (combs 0 xs) = 0 := by
          simp [combs, List.countP_cons]
        rw [h1, ih 1 hx2 hxs (by omega)]
        simp
      | succ j2 =>
        rw [ih (j2 + 1) hx2 hxs (by omega), ih (j2 + 2) hx2 hxs (by omega)]
        simp only [Nat.add_sub_cancel, List.length_cons]
        obtain ⟨m, hm⟩ : ∃ m, xs.length = m + 1 := ⟨xs.length - 1, by omega⟩
        rw [hm]
        simp only [Nat.add_sub_cancel]
        rw [Nat.choose_succ_succ]
        rfl

theorem length_collectionLabels (N : Nat) : (collectionLabels N).length = N := by
  simp [collectionLabels]

theorem mem_collectionLabels (N : Nat) (s : GoStr) :
    s ∈ collectionLabels N ↔ ∃ i, i < N ∧ s = [65 + i] := by
  simp [collectionLabels, collectionLetterFromIndex, List.mem_map, eq_comm]

theorem nodup_collectionLabels (N : Nat) : (collectionLabels N).Nodup := by
  refine List.Nodup.map_on ?_ (List.nodup_range N)
  intro a _ b _ hab
  simpa [collectionLetterFromIndex] using hab

theorem labels_length_one (N : Nat) : ∀ s ∈ collectionLabels N, s.length = 1 := by
  intro s hs
  obtain ⟨i, _, rfl⟩ := (mem_collectionLabels N s).mp hs
  rfl

theorem allCombos_elem_length_one (K N : Nat) (c : List GoStr)
    (hc : c ∈ allCombos K N) : ∀ s ∈ c, s.length = 1 := by
  intro s hs
  have hsub := ((mem_combs K (collectionLabels N) c).mp hc).1
  exact labels_length_one N s (hsub.subset hs)

theorem allCombos_elem_length (K N : Nat) (c : List GoStr)
    (hc : c ∈ allCombos K N) : c.length = K :=
  ((mem_combs K (collectionLabels N) c).mp hc).2

theorem flatten_inj_singletons (c1 : List GoStr) :
    ∀ (c2 : List GoStr), (∀ s ∈ c1, s.length = 1) → (∀ s ∈ c2, s.length = 1) →
    c1.flatten = c2.flatten → c1 = c2 := by
  induction c1 with
  | nil =>
    intro c2 _ h2 hf
    cases c2 with
    | nil => rfl
    | cons s t =>
      obtain ⟨a, rfl⟩ : ∃ a, s = [a] := by
        have := h2 s (List.mem_cons_self _ _)
        cases s with
        | nil => simp at this
        | cons a r =>
          cases r with
          | nil => exact ⟨a, rfl⟩
          | cons b q => simp at this
      simp at hf
  | cons s t ih =>
    intro c2 h1 h2 hf
    obtain ⟨a, rfl⟩ : ∃ a, s = [a] := by
      have := h1 s (List.mem_cons_self _ _)
      cases s with
      | nil => simp at this
      | cons a r =>
        cases r with
        | nil => exact ⟨a, rfl⟩
        | cons b q => simp at this
    cases c2 with
    | nil => simp at hf
    | cons s2 t2 =>
      obtain ⟨b, rfl⟩ : ∃ b, s2 = [b] := by
        have := h2 s2 (List.mem_cons_self _ _)
        cases s2 with
        | nil => simp at this
        | cons b r =>
          cases r with
          | nil => exact ⟨b, rfl⟩
          | cons e q => simp at this
      simp only [List.flatten_cons, List.singleton_append, List.cons.injEq] at hf
      obtain ⟨rfl, hf2⟩ := hf
      have := ih t2 (fun x hx => h1 x (List.mem_cons_of_mem _ hx))
        (fun x hx => h2 x (List.mem_cons_of_mem _ hx)) hf2
      rw [this]

theorem participating_perm (K N : Nat) (lab : GoStr) :
    (participating K N lab).Perm
      (((allCombos K N).filter (fun combo => lab ∈ combo)).map List.flatten) :=
  List.perm_insertionSort _ _

theorem mem_participating (K N : Nat) (lab s : GoStr) :
    s ∈ participating K N lab ↔
      ∃ c, c ∈ allCombos K N ∧ lab ∈ c ∧ s = c.flatten := by
  rw [(participating_perm K N lab).mem_iff]
  simp only [List.mem_map, List.mem_filter, decide_eq_true_eq]
  constructor
  · rintro ⟨c, ⟨hc, hlab⟩, rfl⟩
    exact ⟨c, hc, hlab, rfl⟩
  · rintro ⟨c, hc, hlab, rfl⟩
    exact ⟨c, ⟨hc, hlab⟩, rfl⟩

theorem sorted_participating (K N : Nat) (lab : GoStr) :
    List.Sorted (fun a b => a ≤ b) (participating K N lab) := by
  have := List.sorted_insertionSort (α := GoStr) (fun a b => a ≤ b)
    (((allCombos K N).filter (fun combo => lab ∈ combo)).map List.flatten)
  exact this

theorem nodup_participating (K N : Nat) (lab : GoStr) :
    (participating K N lab).Nodup := by
  rw [(participating_perm K N lab).nodup_iff]
  refine List.Nodup.map_on ?_ ?_
  · intro c1 hc1 c2 hc2 hf
    exact flatten_inj_singletons c1 c2
      (allCombos_elem_length_one K N c1 (List.mem_filter.mp hc1).1)
      (allCombos_elem_length_one K N c2 (List.mem_filter.mp hc2).1) hf
  · exact List.Nodup.filter _ (nodup_combs K _ (nodup_collectionLabels N))

theorem length_participating (K N i : Nat) (hK : 1 ≤ K) (hi : i < N) :
    (participating K N [65 + i]).length = Nat.choose (N - 1) (K - 1) := by
  rw [(participating_perm K N [65 + i]).length_eq, List.length_map,
    ← List.countP_eq_length_filter]
  have hmem : [65 + i] ∈ collectionLabels N :=
    (mem_collectionLabels N [65 + i]).mpr ⟨i, hi, rfl⟩
  have h := countP_combs_mem (α := GoStr) [65 + i] (collectionLabels N) K hmem
    (nodup_collectionLabels N) hK
  rw [length_collectionLabels] at h
  refine Eq.trans (List.countP_congr ?_) h
  intro a _
  simp

theorem sorted_le_nodup_pairwise_lt {α : Type} [LinearOrder α] (l : List α)
    (hs : List.Sorted (fun a b => a ≤ b) l) (hnd : l.Nodup) :
    List.Pairwise (fun a b => a < b) l := by
  have := List.Pairwise.and hs hnd
  exact this.imp (fun h => lt_of_le_of_ne h.1 h.2)

theorem choose_mul_div (N K : Nat) (hK : 1 ≤ K) (hKN : K ≤ N) :
    Nat.choose N K * K / N = Nat.choose (N - 1) (K - 1) := by
  have hN : 1 ≤ N := le_trans hK hKN
  obtain ⟨n, rfl⟩ : ∃ n, N = n + 1 := ⟨N - 1, by omega⟩
  obtain ⟨k, rfl⟩ : ∃ k, K = k + 1 := ⟨K - 1, by omega⟩
  have h := Nat.succ_mul_choose_eq n k
  simp only [Nat.succ_eq_add_one] at h
  simp only [Nat.add_sub_cancel]
  rw [← h, Nat.mul_div_cancel_left _ (by omega)]

theorem permutationCount_eq (K N : Nat) (hK : 1 ≤ K) (hN : 1 ≤ N) :
    UniqueSortedCombinationsCount K N = Nat.choose (N - 1) (K - 1) := by
  have := length_participating K N 0 hK (by omega)
  simpa [UniqueSortedCombinationsCount, collectionLetterFromIndex] using this

theorem permutationCount_pos (K N : Nat) (hK : 1 ≤ K) (hKN : K ≤ N) :
    1 ≤ UniqueSortedCombinationsCount K N := by
  rw [permutationCount_eq K N hK (le_trans hK hKN)]
  exact Nat.choose_pos (by omega)

/-! The OTP encoder: Pad.Encode and encodeOneChunk (pad.go lines 1048 to
1174).  The random source is an infinite byte stream rng with an explicit
read position; chunk sinks are byte accumulators whose Write always succeeds
and whose Close reports an error exactly when the closeErr oracle says so. -/

/-- PadErr enumerates the error returns of the encoder paths; panicked
stands for the runtime panics that nil-map or out-of-range slice indexing
would raise in Go. -/
inductive PadErr : Type where
  | badCollectionLabel : PadErr
  | permutationIndexNotFound : PadErr
  | panicked : PadErr
deriving DecidableEq

/-- padBytes is the byte block the random source delivers for one pad. -/
def padBytes (rng : Nat → Nat) (pos len : Nat) : GoStr :=
  (List.range len).map (fun j => rng (pos + j))

/-- cipherTuple models the cipher slice built for one subset key in
encodeOneChunk (pad.go lines 1109 to 1128): entry 0 starts as a copy of the
chunk data and is XORed with each of the fresh pads, and entries 1 and later
are the pads themselves. -/
def cipherTuple (chunkData : GoStr) (pads : List GoStr) : List GoStr :=
  List.foldl xorBytes chunkData pads :: pads

/-- genCiphers models the first loop of encodeOneChunk: for every subset key
in iteration order, draw padCount fresh pads of the chunk length from the
random source and record the cipher tuple; it returns the association list
modelling the Ciphers map and the next unread stream position. -/
def genCiphers (padCount : Nat) (keys : List GoStr) (chunkData : GoStr)
    (rng : Nat → Nat) (pos : Nat) : List (GoStr × List GoStr) × Nat :=
  match keys with
  | [] => ([], pos)
  | k :: rest =>
    let pads := (List.range padCount).map
      (fun t => padBytes rng (pos + t * chunkData.length) chunkData.length)
    let next := genCiphers padCount rest chunkData rng
      (pos + padCount * chunkData.length)
    ((k, cipherTuple chunkData pads) :: next.fst, next.snd)

/-- lookupCipher models indexing the Ciphers map by a subset key; a missing
key yields none, which the record writer turns into the panic marker just as
indexing a nil slice would panic in Go. -/
def lookupCipher (m : List (GoStr × List GoStr)) (key : GoStr) : Option (List GoStr) :=
  match m with
  | [] => none
  | (k, v) :: rest => if k = key then some v else lookupCipher rest key

/-- collectShares models the inner loop of encodeOneChunk lines 1154 to
1166: for every participating subset of the collection, select this
collection's share from the subset's cipher tuple at the collection's
position inside the subset. -/
def collectShares (cipherMap : List (GoStr × List GoStr)) (collLetter : GoStr) :
    List GoStr → Except PadErr (List GoStr)
  | [] => Except.ok []
  | perm :: rest =>
    match permutationIndexFn perm collLetter with
    | none => Except.error PadErr.permutationIndexNotFound
    | some collIndex =>
      match lookupCipher cipherMap perm with
      | none => Except.error PadErr.panicked
      | some cipher =>
        match cipher.get? collIndex with
        | none => Except.error PadErr.panicked
        | some share =>
          match collectShares cipherMap collLetter rest with
          | Except.error e => Except.error e
          | Except.ok tail => Except.ok (share :: tail)

/-- recordBytes models one iteration of the second loop of encodeOneChunk
(pad.go lines 1131 to 1170): parse the label, build the length-prefixed
chunk name, append this collection's shares in participating order, and
close the sink; the source discards the result of Close on line 1169, so
the close oracle is consulted and its answer dropped. -/
def recordBytes (p : Pad) (cipherMap : List (GoStr × List GoStr))
    (collName : GoStr) (chunkNumber chunkDataBytes : Nat)
    (closeErr : GoStr → Nat → Bool) : Except PadErr GoStr :=
  match extractFromCollectionLabel collName with
  | none => Except.error PadErr.badCollectionLabel
  | some (_, _, collLetter) =>
    let chunkName := buildChunkName collName chunkNumber chunkDataBytes
    let nameHeader := chunkName.length % 256 :: chunkName
    match collectShares cipherMap collLetter (p.Permutations collLetter) with
    | Except.error e => Except.error e
    | Except.ok shares =>
      let _closeResult := closeErr collName chunkNumber
      Except.ok (nameHeader ++ shares.flatten)

/-- buildAllRecords runs recordBytes over every collection in order. -/
def buildAllRecords (p : Pad) (cipherMap : List (GoStr × List GoStr))
    (chunkNumber chunkDataBytes : Nat) (closeErr : GoStr → Nat → Bool) :
    List GoStr → Except PadErr (List GoStr)
  | [] => Except.ok []
  | collName :: rest =>
    match recordBytes p cipherMap collName chunkNumber chunkDataBytes closeErr with
    | Except.error e => Except.error e
    | Except.ok record =>
      match buildAllRecords p cipherMap chunkNumber chunkDataBytes closeErr rest with
      | Except.error e => Except.error e
      | Except.ok records => Except.ok (record :: records)

/-- encodeOneChunk models pad.go lines 1101 to 1174: generate the cipher
tuples of every subset for this chunk, then emit one record per collection;
it returns the records in collection order together with the next unread
random-stream position. -/
def encodeOneChunk (p : Pad) (chunkData : GoStr) (chunkNumber : Nat)
    (rng : Nat → Nat) (pos : Nat) (closeErr : GoStr → Nat → Bool) :
    Except PadErr (List GoStr × Nat) :=
  let gen := genCiphers (p.RequiredCopies - 1) p.CipherKeys chunkData rng pos
  match buildAllRecords p gen.fst chunkNumber chunkData.length closeErr p.Collections with
  | Except.error e => Except.error e
  | Except.ok records => Except.ok (records, gen.snd)

/-- encodeLoop models the chunk loop of Pad.Encode (pad.go lines 1057 to
1077) with explicit fuel; none marks an execution that does not terminate
within the fuel.  io.ReadFull on a finite stream delivers
min inputChunkBytes remaining bytes, reporting EOF on zero bytes and
ErrUnexpectedEOF on a short nonzero read, both of which end the loop. -/
def encodeLoop (p : Pad) (inputChunkBytes : Nat) (rng : Nat → Nat)
    (closeErr : GoStr → Nat → Bool) :
    Nat → GoStr → Nat → Nat → List GoStr → Option (Except PadErr (List GoStr))
  | 0, _, _, _, _ => none
  | fuel + 1, input, chunkIndex, pos, acc =>
    let buffer := input.take inputChunkBytes
    let bytesRead := buffer.length
    if 0 < bytesRead then
      match encodeOneChunk p buffer chunkIndex rng pos closeErr with
      | Except.error e => some (Except.error e)
      | Except.ok (records, pos2) =>
        let acc2 := List.zipWith (fun a r => a ++ r) acc records
        if bytesRead < inputChunkBytes then some (Except.ok acc2)
        else encodeLoop p inputChunkBytes rng closeErr fuel
          (input.drop inputChunkBytes) (chunkIndex + 1) pos2 acc2
    else
      if 0 < inputChunkBytes then some (Except.ok acc)
      else encodeLoop p inputChunkBytes rng closeErr fuel input (chunkIndex + 1) pos acc

/-- PadEncode models Pad.Encode (pad.go lines 1048 to 1081): the plaintext
chunk size is the integer quotient of the output chunk budget by the
permutation count, and the loop runs until the input stream is exhausted.
The fuel input.length + 1 covers every terminating execution, because each
continuing iteration consumes at least one byte of input when the chunk
size is positive. -/
def PadEncode (p : Pad) (outputChunkBytes : Nat) (input : GoStr)
    (rng : Nat → Nat) (closeErr : GoStr → Nat → Bool) :
    Option (Except PadErr (List GoStr)) :=
  encodeLoop p (outputChunkBytes / p.PermutationCount) rng closeErr
    (input.length + 1) input 1 0 (p.Collections.map (fun _ => []))

theorem encodeLoop_zero_chunk_diverges (p : Pad) (rng : Nat → Nat)
    (closeErr : GoStr → Nat → Bool) :
    ∀ (fuel : Nat) (input : GoStr) (chunkIndex pos : Nat) (acc : List GoStr),
    encodeLoop p 0 rng closeErr fuel input chunkIndex pos acc = none := by
  intro fuel
  induction fuel with
  | zero => intro input c pos acc; rfl
  | succ f ih =>
    intro input c pos acc
    rw [encodeLoop]
    simp only [List.take_zero, List.length_nil, Nat.lt_irrefl, if_false]
    exact ih input (c + 1) pos acc

/-! The OTP decoder: Pad.Decode (pad.go lines 1201 to 1394). -/

/-- DecErr enumerates the error returns of Pad.Decode; panicked stands for
the runtime panics that nil-slice or out-of-range indexing would raise. -/
inductive DecErr : Type where
  | readName : DecErr
  | badChunkName : DecErr
  | badLabel : DecErr
  | padInitFailed : DecErr
  | nameMismatch : DecErr
  | requiredMismatch : DecErr
  | totalMismatch : DecErr
  | chunkNumberMismatch : DecErr
  | readChunkData : DecErr
  | notEnoughCopies : DecErr
  | permutationNotFound : DecErr
  | permutationIndexNotFound : DecErr
  | panicked : DecErr
deriving DecidableEq

/-- DecState models the per-collection collectionState of Pad.Decode
(pad.go lines 1207 to 1221) together with the unread remainder of the
stream. -/
structure DecState where
  rem : GoStr
  nextChunkNumber : Nat
  collectionName : GoStr
  collectionLetter : GoStr
  done : Bool
deriving DecidableEq

/-- readStreamChunk models one iteration of the per-stream loop of
Pad.Decode (pad.go lines 1232 to 1324): read the one-byte name length (EOF
marks the stream done), read and parse the chunk name, parse the label,
initialize the pad from the first header when it has not been initialized,
check the collection name, the copy counts and the chunk number, and read
the chunk body of chunkDataBytes times PermutationCount bytes.  It returns
the updated state, the chunk body when the stream is not done, the possibly
initialized pad and the parsed chunkDataBytes. -/
def readStreamChunk (padOpt : Option Pad) (st : DecState) :
    Except DecErr (DecState × Option GoStr × Option Pad × Option Nat) :=
  match st.rem with
  | [] => Except.ok ({ st with done := true }, none, padOpt, none)
  | lenByte :: rest =>
    if rest.length < lenByte then Except.error DecErr.readName
    else
      let chunkName := rest.take lenByte
      match extractFromChunkName chunkName with
      | none => Except.error DecErr.badChunkName
      | some (collName, chunkNum, chunkDataBytes) =>
        match extractFromCollectionLabel collName with
        | none => Except.error DecErr.badLabel
        | some (requiredCopies, totalCopies, collLetter) =>
          match (match padOpt with
                 | none => PadInit totalCopies requiredCopies
                 | some p => some p) with
          | none => Except.error DecErr.padInitFailed
          | some p =>
            if st.collectionName ≠ [] ∧ st.collectionName ≠ collName then
              Except.error DecErr.nameMismatch
            else if requiredCopies ≠ p.RequiredCopies then
              Except.error DecErr.requiredMismatch
            else if totalCopies ≠ p.TotalCopies then
              Except.error DecErr.totalMismatch
            else if chunkNum ≠ st.nextChunkNumber then
              Except.error DecErr.chunkNumberMismatch
            else
              let readLength := chunkDataBytes * p.PermutationCount
              let afterName := rest.drop lenByte
              if afterName.length < readLength then Except.error DecErr.readChunkData
              else
                Except.ok
                  ({ rem := afterName.drop readLength,
                     nextChunkNumber := st.nextChunkNumber + 1,
                     collectionName := if st.collectionName = [] then collName else st.collectionName,
                     collectionLetter := if st.collectionName = [] then collLetter else st.collectionLetter,
                     done := false },
                   some (afterName.take readLength), some p, some chunkDataBytes)

/-- readAllStreams runs readStreamChunk over the stream states in order,
threading the possibly initialized pad and the shared chunkDataBytes
variable, which keeps the value parsed by the last stream that was not at
EOF, exactly as the Go variable declared outside the loop does. -/
def readAllStreams (padOpt : Option Pad) (lastB : Nat) :
    List DecState → Except DecErr (List DecState × List (Option GoStr) × Option Pad × Nat)
  | [] => Except.ok ([], [], padOpt, lastB)
  | st :: rest =>
    match readStreamChunk padOpt st with
    | Except.error e => Except.error e
    | Except.ok (st2, chunk, padOpt2, bOpt) =>
      let lastB2 := match bOpt with | none => lastB | some b => b
      match readAllStreams padOpt2 lastB2 rest with
      | Except.error e => Except.error e
      | Except.ok (sts, chunks, padOpt3, lastB3) =>
        Except.ok (st2 :: sts, chunk :: chunks, padOpt3, lastB3)

/-- decodeXorLoop models the reconstruction loop of Pad.Decode (pad.go
lines 1360 to 1385): the i-th sorted letter selects the subset position in
its participating list, but the share bytes are taken from chunks at the
stream position i, exactly as the source indexes chunks by the loop
counter. -/
def decodeXorLoop (p : Pad) (chunks : List (Option GoStr)) (chunkDataBytes : Nat)
    (permutation : GoStr) : List GoStr → Nat → GoStr → Except DecErr GoStr
  | [], _, acc => Except.ok acc
  | letter :: restLetters, i, acc =>
    let perms := p.Permutations letter
    if perms = [] then Except.error DecErr.permutationNotFound
    else
      match perms.findIdx? (fun q => q = permutation) with
      | none => Except.error DecErr.permutationIndexNotFound
      | some permIndex =>
        match chunks.get? i with
        | none => Except.error DecErr.panicked
        | some none => Except.error DecErr.panicked
        | some (some chunk) =>
          let permBase := permIndex * chunkDataBytes
          if chunk.length < permBase + chunkDataBytes then Except.error DecErr.panicked
          else
            decodeXorLoop p chunks chunkDataBytes permutation restLetters (i + 1)
              (xorBytes acc ((chunk.drop permBase).take chunkDataBytes))

/-- decodeLoop models the chunk loop of Pad.Decode (pad.go lines 1228 to
1393) with explicit fuel: read one record from every stream, return
success when all streams are done and also when only some streams are done
(pad.go lines 1338 to 1345 return nil in both cases), otherwise sort the
collection letters, keep the first RequiredCopies of them, reconstruct the
chunk and append it to the output. -/
def decodeLoop (p0 : Pad) :
    Nat → Option Pad → List DecState → Nat → GoStr → Option (Except DecErr GoStr)
  | 0, _, _, _, _ => none
  | fuel + 1, padOpt, states, lastB, out =>
    match readAllStreams padOpt lastB states with
    | Except.error e => some (Except.error e)
    | Except.ok (states2, chunks, padOpt2, lastB2) =>
      if states2.all (fun st => st.done) then some (Except.ok out)
      else if states2.any (fun st => st.done) then some (Except.ok out)
      else
        let p := match padOpt2 with | none => p0 | some p => p
        let chunkLetters := List.insertionSort (fun a b => a ≤ b)
          (states2.map (fun st => st.collectionLetter))
        if chunkLetters.length < p.RequiredCopies then
          some (Except.error DecErr.notEnoughCopies)
        else
          let selLetters := chunkLetters.take p.RequiredCopies
          let permutation := selLetters.flatten
          match decodeXorLoop p chunks lastB2 permutation selLetters 0
              (List.replicate lastB2 0) with
          | Except.error e => some (Except.error e)
          | Except.ok decoded =>
            decodeLoop p0 fuel padOpt2 states2 lastB2 (out ++ decoded)

/-- PadDecode models Pad.Decode (pad.go lines 1201 to 1394) on the method
receiver p0, whose pre-call field values are only reachable if a chunk is
decoded before any stream has initialized the pad, which cannot happen, as
every stream that is not at EOF initializes it.  The initial states mirror
pad.go lines 1215 to 1221.  The fuel, one more than the length of the first
stream, covers every terminating execution, because every iteration that
continues consumes at least one byte from every stream that is not done, and
any done stream ends the loop. -/
def PadDecode (p0 : Pad) (collections : List GoStr) : Option (Except DecErr GoStr) :=
  decodeLoop p0 ((collections.headD []).length + 1) none
    (collections.map (fun r =>
      { rem := r, nextChunkNumber := 1, collectionName := [],
        collectionLetter := [], done := false }))
    0 []

/-! The multi-source RNG mixer: MultiRNG.Read (rng.go lines 129 to 162). -/

/-- SrcRes is the outcome of one Read call on an underlying source: either
an error carrying an opaque code, or a block of bytes of which the caller
keeps at most the requested count, honouring the io.Reader contract. -/
inductive SrcRes : Type where
  | err : Nat → SrcRes
  | bytes : GoStr → SrcRes
deriving DecidableEq

/-- Source models one entry of the Sources slice as the sequence of results
its Read method returns during one MultiRNG.Read invocation, indexed by a
per-invocation call counter. -/
abbrev Source := Nat → SrcRes

/-- RngErr mirrors the error rng.go line 145 returns, which wraps the
failing source's error with fmt.Errorf and the %w verb. -/
inductive RngErr : Type where
  | sourceFailed : Nat → RngErr
deriving DecidableEq

/-- readFullFrom models the inner retry loop of MultiRNG.Read (rng.go lines
142 to 151): keep calling the source until the accumulated bytes reach the
needed length, retrying short and empty reads, and stop on the first error;
the fuel bounds the number of calls, and none marks an execution that does
not finish within it, such as a source that forever returns zero bytes. -/
def readFullFrom (s : Source) (need : Nat) :
    Nat → Nat → GoStr → Option (Except RngErr GoStr)
  | 0, _, _ => none
  | fuel + 1, callIdx, acc =>
    if need ≤ acc.length then some (Except.ok acc)
    else
      match s callIdx with
      | SrcRes.err e => some (Except.error (RngErr.sourceFailed e))
      | SrcRes.bytes b =>
        readFullFrom s need fuel (callIdx + 1) (acc ++ b.take (need - acc.length))

/-- multiReadAux folds the per-source full reads of MultiRNG.Read into the
XOR accumulator; on the first source error it returns count 0 and the
wrapped error with the buffer untouched (rng.go line 145), and after the
last source it copies the accumulator into the buffer and returns its
length (rng.go lines 160 to 161). -/
def multiReadAux (fuel : Nat) (p : GoStr) :
    List Source → GoStr → Option (GoStr × Nat × Option RngErr)
  | [], acc => some (acc, p.length, none)
  | s :: rest, acc =>
    match readFullFrom s p.length fuel 0 [] with
    | none => none
    | some (Except.error e) => some (p, 0, some e)
    | some (Except.ok tmp) => multiReadAux fuel p rest (xorBytes acc tmp)

/-- multiRead models MultiRNG.Read (rng.go lines 129 to 162) on buffer p,
with every retry loop given the same fuel; the result is the new buffer
contents, the returned count and the returned error. -/
def multiRead (fuel : Nat) (sources : List Source) (p : GoStr) :
    Option (GoStr × Nat × Option RngErr) :=
  multiReadAux fuel p sources (List.replicate p.length 0)

theorem readFullFrom_ok_length (s : Source) (need : Nat) :
    ∀ (fuel callIdx : Nat) (acc out : GoStr),
    readFullFrom s need fuel callIdx acc = some (Except.ok out) →
    acc.length ≤ need → out.length = need := by
  intro fuel
  induction fuel with
  | zero => intro callIdx acc out h; simp [readFullFrom] at h
  | succ f ih =>
    intro callIdx acc out h hle
    rw [readFullFrom] at h
    by_cases hfull : need ≤ acc.length
    · rw [if_pos hfull] at h
      have : acc = out := by simpa using h
      subst this
      omega
    · rw [if_neg hfull] at h
      cases hs : s callIdx with
      | err e => rw [hs] at h; simp at h
      | bytes b =>
        rw [hs] at h
        refine ih (callIdx + 1) _ out h ?_
        rw [List.length_append]
        have := List.length_take_le (need - acc.length) b
        omega

/-- dfltSource is the placeholder a getD lookup outside the source list
returns; it is never consulted by the theorems below. -/
def dfltSource : Source := fun _ => SrcRes.err 0

theorem readFullFrom_error_source (s : Source) (need : Nat) :
    ∀ (fuel callIdx : Nat) (acc : GoStr) (c : Nat),
    readFullFrom s need fuel callIdx acc
      = some (Except.error (RngErr.sourceFailed c)) →
    ∃ j, s j = SrcRes.err c := by
  intro fuel
  induction fuel with
  | zero => intro callIdx acc c h; simp [readFullFrom] at h
  | succ f ih =>
    intro callIdx acc c h
    rw [readFullFrom] at h
    by_cases hfull : need ≤ acc.length
    · rw [if_pos hfull] at h; simp at h
    · rw [if_neg hfull] at h
      cases hs : s callIdx with
      | err e =>
        rw [hs] at h
        simp only [Option.some.injEq, Except.error.injEq, RngErr.sourceFailed.injEq] at h
        exact ⟨callIdx, by rw [hs, h]⟩
      | bytes b =>
        rw [hs] at h
        exact ih (callIdx + 1) _ c h

theorem multiReadAux_spec (fuel : Nat) (p : GoStr) :
    ∀ (sources : List Source) (acc : GoStr) (res : GoStr × Nat × Option RngErr),
    multiReadAux fuel p sources acc = some res →
    (∃ bss : List GoStr, bss.length = sources.length ∧
        (∀ k, k < sources.length →
          readFullFrom (sources.getD k dfltSource) p.length fuel 0 []
              = some (Except.ok (bss.getD k [])) ∧
            (bss.getD k []).length = p.length) ∧
        res = (List.foldl xorBytes acc bss, p.length, none))
    ∨ (∃ k c, k < sources.length ∧
        readFullFrom (sources.getD k dfltSource) p.length fuel 0 []
          = some (Except.error (RngErr.sourceFailed c)) ∧
        res = (p, 0, some (RngErr.sourceFailed c))) := by
  intro sources
  induction sources with
  | nil =>
    intro acc res h
    left
    refine ⟨[], rfl, ?_, ?_⟩
    · intro k hk; simp at hk
    · simpa [multiReadAux] using h.symm
  | cons s rest ih =>
    intro acc res h
    rw [multiReadAux] at h
    cases hr : readFullFrom s p.length fuel 0 [] with
    | none => rw [hr] at h; simp at h
    | some r =>
      cases r with
      | error e =>
        rw [hr] at h
        cases e with
        | sourceFailed c =>
          right
          refine ⟨0, c, by simp, by simpa using hr, by simpa using h.symm⟩
      | ok tmp =>
        rw [hr] at h
        rcases ih (xorBytes acc tmp) res h with ⟨bss, hlen, hper, hres⟩ | ⟨k, c, hk, hrf, hres⟩
        · left
          have htmp : tmp.length = p.length :=
            readFullFrom_ok_length s p.length fuel 0 [] tmp hr (by simp)
          refine ⟨tmp :: bss, by simpa using hlen, ?_, ?_⟩
          · intro k hk
            cases k with
            | zero => exact ⟨by simpa using hr, by simpa using htmp⟩
            | succ j =>
              have := hper j (by simpa using hk)
              simpa using this
          · simpa using hres
        · right
          exact ⟨k + 1, c, by simpa using hk, by simpa using hrf, hres⟩

/-- C8: MultiRNG.Read on a non-empty source list fills the buffer with the
byte-wise XOR of one full-length block obtained from each source by the
retry loop, returning the buffer length, and it returns the first source
error, with count 0 and the buffer unchanged, as soon as a source reports
an error. -/
theorem multiRead_mixes_sources (fuel : Nat) (sources : List Source)
    (p pOut : GoStr) (n : Nat) (errOpt : Option RngErr)
    (hne : sources ≠ [])
    (h : multiRead fuel sources p = some (pOut, n, errOpt)) :
    (errOpt = none →
      ∃ bss : List GoStr, bss.length = sources.length ∧
        (∀ k, k < sources.length →
          readFullFrom (sources.getD k dfltSource) p.length fuel 0 []
              = some (Except.ok (bss.getD k [])) ∧
            (bss.getD k []).length = p.length) ∧
        pOut = List.foldl xorBytes (List.replicate p.length 0) bss ∧ n = p.length)
    ∧ (∀ c, errOpt = some (RngErr.sourceFailed c) →
        pOut = p ∧ n = 0 ∧ ∃ k, k < sources.length ∧
          readFullFrom (sources.getD k dfltSource) p.length fuel 0 []
            = some (Except.error (RngErr.sourceFailed c))) := by
  rcases multiReadAux_spec fuel p sources (List.replicate p.length 0) (pOut, n, errOpt) h
    with ⟨bss, hlen, hper, hres⟩ | ⟨k, c, hk, hrf, hres⟩
  · obtain ⟨h1, h2, h3⟩ : pOut = List.foldl xorBytes (List.replicate p.length 0) bss
        ∧ n = p.length ∧ errOpt = none := by
      have := hres
      simp only [Prod.mk.injEq] at this
      exact ⟨this.1, this.2.1, this.2.2⟩
    constructor
    · intro _
      exact ⟨bss, hlen, hper, h1, h2⟩
    · intro c hc
      rw [h3] at hc
      simp at hc
  · obtain ⟨h1, h2, h3⟩ : pOut = p ∧ n = 0 ∧ errOpt = some (RngErr.sourceFailed c) := by
      have := hres
      simp only [Prod.mk.injEq] at this
      exact ⟨this.1, this.2.1, this.2.2⟩
    constructor
    · intro hnone
      rw [h3] at hnone
      simp at hnone
    · intro c2 hc2
      rw [h3] at hc2
      simp only [Option.some.injEq, RngErr.sourceFailed.injEq] at hc2
      subst hc2
      exact ⟨h1, h2, k, hk, hrf⟩

/-- C10: when a source reports an error during MultiRNG.Read, the call
returns count 0 together with that source's error and leaves the buffer
exactly as it was; the buffer is replaced by the XOR accumulator only when
every source has delivered the full length. -/
theorem multiRead_error_leaves_buffer (fuel : Nat) (sources : List Source)
    (p pOut : GoStr) (n : Nat) (errOpt : Option RngErr)
    (h : multiRead fuel sources p = some (pOut, n, errOpt)) :
    (∀ c, errOpt = some (RngErr.sourceFailed c) →
      pOut = p ∧ n = 0 ∧
        ∃ k, k < sources.length ∧ ∃ j, (sources.getD k dfltSource) j = SrcRes.err c)
    ∧ (errOpt = none →
      n = p.length ∧
        ∀ k, k < sources.length →
          ∃ bs : GoStr, readFullFrom (sources.getD k dfltSource) p.length fuel 0 []
              = some (Except.ok bs) ∧ bs.length = p.length) := by
  rcases multiReadAux_spec fuel p sources (List.replicate p.length 0) (pOut, n, errOpt) h
    with ⟨bss, hlen, hper, hres⟩ | ⟨k, c, hk, hrf, hres⟩
  · obtain ⟨h1, h2, h3⟩ : pOut = List.foldl xorBytes (List.replicate p.length 0) bss
        ∧ n = p.length ∧ errOpt = none := by
      have := hres
      simp only [Prod.mk.injEq] at this
      exact ⟨this.1, this.2.1, this.2.2⟩
    constructor
    · intro c hc
      rw [h3] at hc
      simp at hc
    · intro _
      refine ⟨h2, ?_⟩
      intro k hk
      obtain ⟨hrf, hblen⟩ := hper k hk
      exact ⟨bss.getD k [], hrf, hblen⟩
  · obtain ⟨h1, h2, h3⟩ : pOut = p ∧ n = 0 ∧ errOpt = some (RngErr.sourceFailed c) := by
      have := hres
      simp only [Prod.mk.injEq] at this
      exact ⟨this.1, this.2.1, this.2.2⟩
    constructor
    · intro c2 hc2
      rw [h3] at hc2
      simp only [Option.some.injEq, RngErr.sourceFailed.injEq] at hc2
      subst hc2
      obtain ⟨j, hj⟩ := readFullFrom_error_source _ p.length fuel 0 [] c hrf
      exact ⟨h1, h2, k, hk, j, hj⟩
    · intro hnone
      rw [h3] at hnone
      simp at hnone

/-- srcSeven always returns the two bytes 7 7. -/
def srcSeven : Source := fun _ => SrcRes.bytes [7, 7]

/-- srcOneTwo always returns the two bytes 1 2. -/
def srcOneTwo : Source := fun _ => SrcRes.bytes [1, 2]

/-- srcFailFive always reports the error code 5. -/
def srcFailFive : Source := fun _ => SrcRes.err 5

theorem multiRead_mixes_sources_witness :
    ∃ bss : List GoStr, bss.length = ([srcSeven, srcOneTwo] : List Source).length ∧
      (∀ k, k < ([srcSeven, srcOneTwo] : List Source).length →
        readFullFrom (([srcSeven, srcOneTwo] : List Source).getD k dfltSource)
            ([9, 9] : GoStr).length 3 0 []
            = some (Except.ok (bss.getD k [])) ∧
          (bss.getD k []).length = ([9, 9] : GoStr).length) ∧
      ([6, 5] : GoStr) = List.foldl xorBytes (List.replicate ([9, 9] : GoStr).length 0) bss ∧
      (2 : Nat) = ([9, 9] : GoStr).length :=
  (multiRead_mixes_sources 3 [srcSeven, srcOneTwo] [9, 9] [6, 5] 2 none
    (List.cons_ne_nil _ _) rfl).1 rfl

theorem multiRead_error_leaves_buffer_witness :
    ([9, 9] : GoStr) = [9, 9] ∧ (0 : Nat) = 0 ∧
    ∃ k, k < ([srcSeven, srcFailFive] : List Source).length ∧
      ∃ j, (([srcSeven, srcFailFive] : List Source).getD k dfltSource) j = SrcRes.err 5 :=
  (multiRead_error_leaves_buffer 3 [srcSeven, srcFailFive] [9, 9] [9, 9] 0
    (some (RngErr.sourceFailed 5)) rfl).1 5 rfl

/-! Analysis of the label parser (pad.go lines 866 to 910) and the chunk
name codec (lines 953 to 977). -/

theorem takeWhile_all_stop (p : Nat → Bool) (a : GoStr) (x : Nat) (r : GoStr)
    (ha : ∀ c ∈ a, p c = true) (hx : p x = false) :
    (a ++ x :: r).takeWhile p = a := by
  induction a with
  | nil => simp [List.takeWhile_cons, hx]
  | cons c t ih =>
    rw [List.cons_append, List.takeWhile_cons, ha c (List.mem_cons_self _ _),
      ih (fun d hd => ha d (List.mem_cons_of_mem _ hd))]
    simp

theorem atoiCore_some_digits (t : GoStr) (neg : Bool) (v : Int)
    (h : atoiCore t neg = some v) : t ≠ [] ∧ t.all isDigitByte = true := by
  rw [atoiCore] at h
  by_cases h1 : t = []
  · rw [if_pos h1] at h; simp at h
  · rw [if_neg h1] at h
    by_cases h2 : t.all isDigitByte = true
    · exact ⟨h1, h2⟩
    · rw [if_neg h2] at h; simp at h

theorem atoiCore_some_val (t : GoStr) (neg : Bool) (v : Int)
    (h : atoiCore t neg = some v) :
    v = if neg then -(digitsVal t : Int) else (digitsVal t : Int) := by
  rw [atoiCore] at h
  by_cases h1 : t = []
  · rw [if_pos h1] at h; simp at h
  · rw [if_neg h1] at h
    by_cases h2 : t.all isDigitByte = true
    · rw [if_pos h2] at h
      by_cases h3 : (digitsVal t : Int) ≤ int64MaxNat + (if neg then 1 else 0)
      · rw [if_pos h3] at h
        simpa using h.symm
      · rw [if_neg h3] at h; simp at h
    · rw [if_neg h2] at h; simp at h

theorem atoi_some_chars (s : GoStr) (v : Int) (h : atoi s = some v) :
    ∀ ch ∈ s, isDigitByte ch = true ∨ ch = 43 ∨ ch = 45 := by
  intro ch hch
  cases s with
  | nil => simp at hch
  | cons c t =>
    rw [atoi] at h
    by_cases h43 : c = 43
    · rw [if_pos h43] at h
      rcases List.mem_cons.mp hch with rfl | hm
      · exact Or.inr (Or.inl h43)
      · exact Or.inl (List.all_eq_true.mp (atoiCore_some_digits t false v h).2 ch hm)
    · rw [if_neg h43] at h
      by_cases h45 : c = 45
      · rw [if_pos h45] at h
        rcases List.mem_cons.mp hch with rfl | hm
        · exact Or.inr (Or.inr h45)
        · exact Or.inl (List.all_eq_true.mp (atoiCore_some_digits t true v h).2 ch hm)
      · rw [if_neg h45] at h
        exact Or.inl (List.all_eq_true.mp (atoiCore_some_digits (c :: t) false v h).2 ch hch)

/-- Inversion of a successful extractFromCollectionLabel run: the guard
values the source checked on its way to success. -/
theorem extractFromCollectionLabel_inv (label : GoStr) (rq tc : Nat) (cl : GoStr)
    (h : extractFromCollectionLabel label = some (rq, tc, cl)) :
    ∃ (rqI tcI : Int),
      atoi (label.take (label.takeWhile isDigitByte).length) = some rqI ∧
      atoi (label.drop ((label.takeWhile isDigitByte).length + 1)) = some tcI ∧
      3 ≤ label.length ∧ 1 ≤ (label.takeWhile isDigitByte).length ∧
      (label.takeWhile isDigitByte).length < label.length - 1 ∧
      (2 : Int) ≤ tcI ∧ tcI ≤ 26 ∧ (2 : Int) ≤ rqI ∧ rqI ≤ tcI ∧
      (65 : Int) ≤ ((label.drop (label.takeWhile isDigitByte).length).headD 0 : Int) ∧
      ((label.drop (label.takeWhile isDigitByte).length).headD 0 : Int) ≤ 65 + tcI - 1 ∧
      rq = rqI.toNat ∧ tc = tcI.toNat ∧
      cl = [(label.drop (label.takeWhile isDigitByte).length).headD 0] := by
  rw [extractFromCollectionLabel] at h
  by_cases h1 : label.length < 3
  · rw [if_pos h1] at h; simp at h
  rw [if_neg h1] at h
  by_cases h2 : (label.takeWhile isDigitByte).length = 0
      ∨ label.length - 1 ≤ (label.takeWhile isDigitByte).length
  · rw [if_pos h2] at h; simp at h
  rw [if_neg h2] at h
  push_neg at h2
  cases hrq : atoi (label.take (label.takeWhile isDigitByte).length) with
  | none => rw [hrq] at h; simp at h
  | some rqI =>
    cases htc : atoi (label.drop ((label.takeWhile isDigitByte).length + 1)) with
    | none => rw [hrq, htc] at h; simp at h
    | some tcI =>
      rw [hrq, htc] at h
      simp only at h
      by_cases h3 : tcI < 2 ∨ 26 < tcI
      · rw [if_pos h3] at h; simp at h
      rw [if_neg h3] at h
      by_cases h4 : rqI < 2 ∨ tcI < rqI
      · rw [if_pos h4] at h; simp at h
      rw [if_neg h4] at h
      by_cases h5 : ((label.drop (label.takeWhile isDigitByte).length).headD 0 : Int) < 65
          ∨ 65 + tcI - 1 < ((label.drop (label.takeWhile isDigitByte).length).headD 0 : Int)
      · rw [if_pos h5] at h; simp at h
      rw [if_neg h5] at h
      push_neg at h3
      push_neg at h4
      push_neg at h5
      obtain ⟨hrqv, htcv, hclv⟩ : rqI.toNat = rq ∧ tcI.toNat = tc ∧
          [(label.drop (label.takeWhile isDigitByte).length).headD 0] = cl := by
        have := h
        simp only [Option.some.injEq, Prod.mk.injEq] at this
        exact ⟨this.1, this.2.1, this.2.2⟩
      exact ⟨rqI, tcI, rfl, rfl, by omega, by omega, by omega,
        h3.1, h3.2, h4.1, h4.2, h5.1, h5.2, hrqv.symm, htcv.symm, hclv.symm⟩

theorem extractFromCollectionLabel_no_colon (label : GoStr) (rq tc : Nat) (cl : GoStr)
    (h : extractFromCollectionLabel label = some (rq, tc, cl)) : (58 : Nat) ∉ label := by
  obtain ⟨rqI, tcI, hrq, htc, hlen3, hi1, hilen, _, _, _, _, hlet1, hlet2, _, _, _⟩ :=
    extractFromCollectionLabel_inv label rq tc cl h
  intro hmem
  set i := (label.takeWhile isDigitByte).length with hidef
  have hsplit : label = label.take i ++ label.drop i := (List.take_append_drop i label).symm
  have hdroplen : 0 < (label.drop i).length := by
    rw [List.length_drop]
    omega
  obtain ⟨hd, tl, hdt⟩ : ∃ hd tl, label.drop i = hd :: tl := by
    cases hcase : label.drop i with
    | nil => rw [hcase] at hdroplen; simp at hdroplen
    | cons hd tl => exact ⟨hd, tl, rfl⟩
  have htl : tl = label.drop (i + 1) := by
    have : (label.drop i).drop 1 = label.drop (i + 1) := by
      rw [List.drop_drop]
    rw [hdt] at this
    simpa using this
  have htake : label.take i = label.takeWhile isDigitByte :=
    (List.prefix_iff_eq_take.mp (List.takeWhile_prefix isDigitByte)).symm
  rw [hsplit] at hmem
  rcases List.mem_append.mp hmem with hin | hin
  · rw [htake] at hin
    have hdig := List.mem_takeWhile_imp hin
    simp [isDigitByte] at hdig
  · rw [hdt] at hin
    rcases List.mem_cons.mp hin with rfl | hin2
    · rw [hdt] at hlet1
      simp only [List.headD_cons] at hlet1
      omega
    · rw [htl] at hin2
      rcases atoi_some_chars _ tcI htc 58 hin2 with hd | h43 | h45
      · simp [isDigitByte] at hd
      · omega
      · omega

theorem extract_build_label (K N i : Nat) (hK : 2 ≤ K) (hKN : K ≤ N)
    (hN : N ≤ 26) (hi : i < N) :
    extractFromCollectionLabel (buildCollectionLabel K N [65 + i])
      = some (K, N, [65 + i]) := by
  have ha1 : 1 ≤ (itoa K).length := List.length_pos.mpr (itoa_ne_nil K)
  have hb1 : 1 ≤ (itoa N).length := List.length_pos.mpr (itoa_ne_nil N)
  have hKmax : K ≤ int64MaxNat := by
    have : (26 : Nat) ≤ int64MaxNat := by decide
    omega
  have hNmax : N ≤ int64MaxNat := by
    have : (26 : Nat) ≤ int64MaxNat := by decide
    omega
  have hform : buildCollectionLabel K N [65 + i] = itoa K ++ (65 + i) :: itoa N := by
    simp [buildCollectionLabel]
  have hcdig : isDigitByte (65 + i) = false := by
    simp only [isDigitByte, Bool.and_eq_false_iff]
    right
    simp only [decide_eq_false_iff_not]
    omega
  have htW : (itoa K ++ (65 + i) :: itoa N).takeWhile isDigitByte = itoa K :=
    takeWhile_all_stop _ _ _ _ (itoa_all_digits K) hcdig
  have hlen : (itoa K ++ (65 + i) :: itoa N).length
      = (itoa K).length + 1 + (itoa N).length := by
    simp only [List.length_append, List.length_cons]
    omega
  have htake : (itoa K ++ (65 + i) :: itoa N).take (itoa K).length = itoa K :=
    List.take_left _ _
  have hdrop : (itoa K ++ (65 + i) :: itoa N).drop (itoa K).length
      = (65 + i) :: itoa N := List.drop_left _ _
  have hdrop1 : (itoa K ++ (65 + i) :: itoa N).drop ((itoa K).length + 1) = itoa N := by
    have h2 : ((itoa K ++ (65 + i) :: itoa N).drop (itoa K).length).drop 1
        = (itoa K ++ (65 + i) :: itoa N).drop ((itoa K).length + 1) :=
      List.drop_drop 1 (itoa K).length _
    rw [← h2, hdrop]
    rfl
  rw [hform, extractFromCollectionLabel]
  simp only [htW, hlen, htake, hdrop, hdrop1, List.headD_cons,
    atoi_itoa K hKmax, atoi_itoa N hNmax]
  rw [if_neg (by omega), if_neg (by omega), if_neg (by push_cast; omega),
    if_neg (by push_cast; omega), if_neg (by push_cast; omega)]
  simp

theorem mem_participating_iff_id (K N i : Nat) (s : GoStr) :
    s ∈ participating K N [65 + i] ↔ s ∈ cipherKeys K N ∧ (65 + i) ∈ s := by
  rw [mem_participating]
  constructor
  · rintro ⟨c, hc, hlab, rfl⟩
    refine ⟨List.mem_map.mpr ⟨c, hc, rfl⟩, ?_⟩
    exact List.mem_flatten.mpr ⟨[65 + i], hlab, List.mem_singleton_self _⟩
  · rintro ⟨hid, hbyte⟩
    obtain ⟨c, hc, rfl⟩ := List.mem_map.mp hid
    refine ⟨c, hc, ?_, rfl⟩
    obtain ⟨l, hl, hmem⟩ := List.mem_flatten.mp hbyte
    have hlen := allCombos_elem_length_one K N c hc l hl
    obtain ⟨x, rfl⟩ : ∃ x, l = [x] := by
      cases l with
      | nil => simp at hlen
      | cons x r =>
        cases r with
        | nil => exact ⟨x, rfl⟩
        | cons y q => simp at hlen
    have hx : x = 65 + i := by
      have := List.mem_singleton.mp hmem
      omega
    subst hx
    exact hl

/-- C7: for every valid N and K, the subset table assigns to each of the N
collection letters a participating list holding exactly C(N,K) times K over
N subset identifiers, namely precisely the identifiers of the K-subsets
containing that letter, in strictly ascending lexicographic order, and the
count UniqueSortedCombinations reports equals the same number. -/
theorem uniqueSortedCombinations_table (K N i : Nat)
    (hK : 2 ≤ K) (hKN : K ≤ N) (hN : N ≤ 26) (hi : i < N) :
    (participating K N [65 + i]).length = Nat.choose N K * K / N
    ∧ (∀ s : GoStr, s ∈ participating K N [65 + i] ↔
        s ∈ cipherKeys K N ∧ (65 + i) ∈ s)
    ∧ List.Pairwise (fun a b : GoStr => a < b) (participating K N [65 + i])
    ∧ UniqueSortedCombinationsCount K N = Nat.choose N K * K / N := by
  have h1 := length_participating K N i (by omega) hi
  have hdiv := choose_mul_div N K (by omega) hKN
  refine ⟨by rw [h1, hdiv], fun s => mem_participating_iff_id K N i s, ?_, ?_⟩
  · exact sorted_le_nodup_pairwise_lt _ (sorted_participating K N [65 + i])
      (nodup_participating K N [65 + i])
  · rw [permutationCount_eq K N (by omega) (by omega), hdiv]

theorem uniqueSortedCombinations_table_witness :
    (participating 2 3 [65 + 1]).length = Nat.choose 3 2 * 2 / 3
    ∧ (∀ s : GoStr, s ∈ participating 2 3 [65 + 1] ↔
        s ∈ cipherKeys 2 3 ∧ (65 + 1) ∈ s)
    ∧ List.Pairwise (fun a b : GoStr => a < b) (participating 2 3 [65 + 1])
    ∧ UniqueSortedCombinationsCount 2 3 = Nat.choose 3 2 * 2 / 3 :=
  uniqueSortedCombinations_table 2 3 1 (by omega) (by omega) (by omega) (by omega)

/-- C6: parsing the chunk name built from an accepted collection label, a
positive chunk number and a positive chunk data size returns exactly the
three inputs, and every name extractFromChunkName accepts has exactly three
colon-separated fields and positive chunk number and data size. -/
theorem chunkName_codec_roundtrip :
    (∀ (label : GoStr) (rq tc : Nat) (cl : GoStr) (n b : Nat),
      extractFromCollectionLabel label = some (rq, tc, cl) →
      1 ≤ n → n ≤ int64MaxNat → 1 ≤ b → b ≤ int64MaxNat →
      extractFromChunkName (buildChunkName label n b) = some (label, n, b))
    ∧ (∀ (s c : GoStr) (n b : Nat), extractFromChunkName s = some (c, n, b) →
      (splitOnByte 58 s).length = 3 ∧ 1 ≤ n ∧ 1 ≤ b) := by
  constructor
  · intro label rq tc cl n b hl hn hnr hb hbr
    exact extractFromChunkName_build label n b
      (extractFromCollectionLabel_no_colon label rq tc cl hl) hn hnr hb hbr
  · intro s c n b h
    rw [extractFromChunkName] at h
    split at h
    · rename_i p0 p1 p2 heq
      cases hn1 : atoi p1 with
      | none => rw [hn1] at h; simp at h
      | some nI =>
        rw [hn1] at h
        simp only at h
        by_cases hpos : nI ≤ 0
        · rw [if_pos hpos] at h; simp at h
        · rw [if_neg hpos] at h
          cases hb1 : atoi p2 with
          | none => rw [hb1] at h; simp at h
          | some bI =>
            rw [hb1] at h
            simp only at h
            by_cases hbpos : bI ≤ 0
            · rw [if_pos hbpos] at h; simp at h
            · rw [if_neg hbpos] at h
              obtain ⟨rfl, hn2, hb2⟩ : p0 = c ∧ nI.toNat = n ∧ bI.toNat = b := by
                have := h
                simp only [Option.some.injEq, Prod.mk.injEq] at this
                exact ⟨this.1, this.2.1, this.2.2⟩
              refine ⟨by rw [heq]; rfl, by omega, by omega⟩
    · simp at h

theorem chunkName_codec_roundtrip_witness :
    extractFromChunkName (buildChunkName [50, 65, 51] 1 2) = some ([50, 65, 51], 1, 2) :=
  chunkName_codec_roundtrip.1 [50, 65, 51] 2 3 [65] 1 2 (by decide) (by omega)
    (by decide) (by omega) (by decide)

theorem PadInit_eq_some (N K : Nat) (p : Pad) (h : PadInit N K = some p) :
    2 ≤ K ∧ K ≤ N ∧ N ≤ 26 ∧ p = padMk N K := by
  rw [PadInit] at h
  by_cases h1 : N < 2 ∨ 26 < N
  · rw [if_pos h1] at h; simp at h
  rw [if_neg h1] at h
  by_cases h2 : K < 2
  · rw [if_pos h2] at h; simp at h
  rw [if_neg h2] at h
  by_cases h3 : N < K
  · rw [if_pos h3] at h; simp at h
  rw [if_neg h3] at h
  push_neg at h1 h2 h3
  exact ⟨h2, h3, h1.2, by simpa using h.symm⟩

theorem PadInit_padMk (N K : Nat) (h2 : 2 ≤ K) (hKN : K ≤ N) (hN : N ≤ 26) :
    PadInit N K = some (padMk N K) := by
  rw [PadInit, if_neg (by omega), if_neg (by omega), if_neg (by omega)]

theorem length_padBytes (rng : Nat → Nat) (pos len : Nat) :
    (padBytes rng pos len).length = len := by
  simp [padBytes]

theorem lookupCipher_genCiphers (padCount : Nat) (keys : List GoStr)
    (d : GoStr) (rng : Nat → Nat) (key : GoStr) (hk : key ∈ keys) :
    ∀ pos : Nat, ∃ pads : List GoStr, pads.length = padCount ∧
      (∀ x ∈ pads, x.length = d.length) ∧
      lookupCipher (genCiphers padCount keys d rng pos).fst key
        = some (cipherTuple d pads) := by
  induction keys with
  | nil => simp at hk
  | cons k rest ih =>
    intro pos
    by_cases hkk : k = key
    · subst hkk
      refine ⟨(List.range padCount).map
        (fun t => padBytes rng (pos + t * d.length) d.length), by simp, ?_, ?_⟩
      · intro x hx
        obtain ⟨t, _, rfl⟩ := List.mem_map.mp hx
        exact length_padBytes rng _ _
      · rw [genCiphers]
        simp [lookupCipher]
    · have hk2 : key ∈ rest := by
        rcases List.mem_cons.mp hk with h | h
        · exact absurd h.symm hkk
        · exact h
      obtain ⟨pads, hl, hlens, hlook⟩ := ih hk2 (pos + padCount * d.length)
      refine ⟨pads, hl, hlens, ?_⟩
      rw [genCiphers]
      simp only [lookupCipher, if_neg hkk]
      exact hlook

theorem cipherTuple_xor (d : GoStr) (pads : List GoStr)
    (hp : ∀ x ∈ pads, x.length = d.length) :
    List.foldl xorBytes (List.replicate d.length 0) (cipherTuple d pads) = d := by
  rw [cipherTuple]
  simp only [List.foldl_cons]
  have ht0len : (List.foldl xorBytes d pads).length = d.length :=
    length_foldl_xorBytes pads d d.length rfl hp
  rw [xorBytes_zero_left _ _ ht0len]
  exact foldl_xorBytes_cancel pads d hp

theorem cipherTuple_length (d : GoStr) (pads : List GoStr)
    (hp : ∀ x ∈ pads, x.length = d.length) :
    ∀ x ∈ cipherTuple d pads, x.length = d.length := by
  intro x hx
  rcases List.mem_cons.mp hx with rfl | hm
  · exact length_foldl_xorBytes pads d d.length rfl hp
  · exact hp x hm

/-- C2: for every chunk and every K-subset key, the cipher tuple the encoder
generates for that subset, whose entries are exactly the K shares handed to
the K member collections, XORs together to the plaintext chunk. -/
theorem encoder_share_xor_invariant (N K : Nat) (p : Pad) (hp : PadInit N K = some p)
    (chunkData : GoStr) (rng : Nat → Nat) (pos : Nat) (S : GoStr)
    (hS : S ∈ p.CipherKeys) :
    ∃ tuple : List GoStr,
      lookupCipher (genCiphers (p.RequiredCopies - 1) p.CipherKeys chunkData rng pos).fst S
        = some tuple ∧
      tuple.length = p.RequiredCopies ∧
      List.foldl xorBytes (List.replicate chunkData.length 0) tuple = chunkData := by
  obtain ⟨hK2, hKN, hN, rfl⟩ := PadInit_eq_some N K p hp
  obtain ⟨pads, hl, hlens, hlook⟩ :=
    lookupCipher_genCiphers ((padMk N K).RequiredCopies - 1) (padMk N K).CipherKeys
      chunkData rng S hS pos
  refine ⟨cipherTuple chunkData pads, hlook, ?_, cipherTuple_xor chunkData pads hlens⟩
  show pads.length + 1 = (padMk N K).RequiredCopies
  have : (padMk N K).RequiredCopies = K := rfl
  rw [this] at hl ⊢
  omega

theorem encoder_share_xor_invariant_witness :
    ∃ tuple : List GoStr,
      lookupCipher (genCiphers ((padMk 2 2).RequiredCopies - 1) (padMk 2 2).CipherKeys
          [104, 105] (fun j => j + 1) 0).fst [65, 66]
        = some tuple ∧
      tuple.length = (padMk 2 2).RequiredCopies ∧
      List.foldl xorBytes (List.replicate ([104, 105] : GoStr).length 0) tuple
        = [104, 105] :=
  encoder_share_xor_invariant 2 2 (padMk 2 2) (PadInit_padMk 2 2 (by omega) (by omega) (by omega))
    [104, 105] (fun j => j + 1) 0 [65, 66] (by decide)

/-- C3 (divergence of the code from the claim): Pad.Encode computes the
plaintext chunk size as the floor quotient of outputChunkBytes by the
permutation count, but when that quotient is zero it does not fail with a
ChunkTooSmall error: the chunk loop never terminates, because io.ReadFull
into an empty buffer returns zero bytes and a nil error forever.  In the
model, the loop returns none at every fuel. -/
theorem encode_zero_chunk_size_never_terminates (N K outputChunkBytes : Nat)
    (p : Pad) (hp : PadInit N K = some p)
    (hoc : outputChunkBytes < p.PermutationCount) :
    (∀ (rng : Nat → Nat) (closeErr : GoStr → Nat → Bool) (fuel : Nat)
      (input : GoStr) (chunkIndex pos : Nat) (acc : List GoStr),
      encodeLoop p (outputChunkBytes / p.PermutationCount) rng closeErr fuel
        input chunkIndex pos acc = none)
    ∧ ∀ (input : GoStr) (rng : Nat → Nat) (closeErr : GoStr → Nat → Bool),
      PadEncode p outputChunkBytes input rng closeErr = none := by
  have hB : outputChunkBytes / p.PermutationCount = 0 := Nat.div_eq_of_lt hoc
  constructor
  · intro rng closeErr fuel input chunkIndex pos acc
    rw [hB]
    exact encodeLoop_zero_chunk_diverges p rng closeErr fuel input chunkIndex pos acc
  · intro input rng closeErr
    rw [PadEncode, hB]
    exact encodeLoop_zero_chunk_diverges p rng closeErr _ input 1 0 _

theorem encode_zero_chunk_size_never_terminates_witness :
    PadEncode (padMk 3 2) 1 [104, 105] (fun j => j + 1) (fun _ _ => false) = none :=
  (encode_zero_chunk_size_never_terminates 3 2 1 (padMk 3 2)
    (PadInit_padMk 3 2 (by omega) (by omega) (by omega)) (by decide)).2
    [104, 105] (fun j => j + 1) (fun _ _ => false)

/-! Claim C5: the label acceptance pattern. -/

/-- Modelled from the spec: specLabelPattern decides the claimed pattern
^[0-9]+[A-Z][0-9]+$ together with the semantic constraints, namely leading
digits K in 2..N, a single uppercase letter whose index is below N, and
trailing digits N in 2..26.  Taking the maximal digit prefix determinizes
the pattern, because an uppercase letter is never a digit. -/
def specLabelPattern (l : GoStr) : Bool :=
  match l.drop (l.takeWhile isDigitByte).length with
  | [] => false
  | c :: rest =>
    decide (l.takeWhile isDigitByte ≠ [] ∧ rest ≠ [] ∧ rest.all isDigitByte = true ∧
      65 ≤ c ∧ c ≤ 90 ∧
      2 ≤ digitsVal (l.takeWhile isDigitByte) ∧
      digitsVal (l.takeWhile isDigitByte) ≤ digitsVal rest ∧
      2 ≤ digitsVal rest ∧ digitsVal rest ≤ 26 ∧ c - 65 < digitsVal rest)

/-- Modelled from the spec and amended by the counterexample below: the
trailing digit field may carry a single leading plus sign, which
strconv.Atoi accepts; a minus sign can never validate because the total
would fall below 2.  amendedLabelParse returns the values parsed from a
label matching the amended pattern and none otherwise. -/
def amendedLabelParse (l : GoStr) : Option (Nat × Nat × GoStr) :=
  match l.drop (l.takeWhile isDigitByte).length with
  | [] => none
  | c :: rest =>
    let d2 := if rest.headD 0 = 43 then rest.tail else rest
    if l.takeWhile isDigitByte = [] then none
    else if d2 = [] then none
    else if d2.all isDigitByte then
      if 2 ≤ digitsVal (l.takeWhile isDigitByte) ∧
          digitsVal (l.takeWhile isDigitByte) ≤ digitsVal d2 ∧
          2 ≤ digitsVal d2 ∧ digitsVal d2 ≤ 26 ∧
          65 ≤ c ∧ c - 65 < digitsVal d2 then
        some (digitsVal (l.takeWhile isDigitByte), digitsVal d2, [c])
      else none
    else none

theorem atoi_digits_eq (s : GoStr) (hne : s ≠ []) (hdig : s.all isDigitByte = true) :
    atoi s = if digitsVal s ≤ int64MaxNat then some ((digitsVal s : Int)) else none := by
  cases s with
  | nil => exact absurd rfl hne
  | cons c t =>
    have hc : isDigitByte c = true := List.all_eq_true.mp hdig c (List.mem_cons_self _ _)
    have hc48 : 48 ≤ c ∧ c ≤ 57 := by
      simpa [isDigitByte, Bool.and_eq_true, decide_eq_true_eq] using hc
    rw [atoi, if_neg (by omega), if_neg (by omega), atoiCore,
      if_neg (by simp), if_pos hdig]
    by_cases hr : digitsVal (c :: t) ≤ int64MaxNat
    · rw [if_pos hr, if_pos (by push_cast; omega)]
      simp
    · rw [if_neg hr, if_neg (by push_cast; omega)]

theorem atoiCore_true_nonpos (t : GoStr) (v : Int) (h : atoiCore t true = some v) :
    v ≤ 0 := by
  have hv := atoiCore_some_val t true v h
  simp only [if_true] at hv
  rw [hv]
  omega

theorem dropWhile_head_false (p : Nat → Bool) (l : GoStr) (c : Nat) (r : GoStr)
    (h : l.dropWhile p = c :: r) : p c = false := by
  induction l with
  | nil => simp at h
  | cons x t ih =>
    rw [List.dropWhile_cons] at h
    by_cases hx : p x = true
    · rw [if_pos hx] at h
      exact ih h
    · rw [if_neg hx] at h
      obtain ⟨rfl, _⟩ : x = c ∧ t = r := by
        have := h
        simp only [List.cons.injEq] at this
        exact this
      simpa using hx

theorem drop_takeWhile_eq_dropWhile (p : Nat → Bool) (l : GoStr) :
    l.drop (l.takeWhile p).length = l.dropWhile p := by
  induction l with
  | nil => rfl
  | cons x t ih =>
    rw [List.takeWhile_cons, List.dropWhile_cons]
    by_cases hx : p x = true
    · rw [if_pos hx, if_pos hx]
      simpa using ih
    · rw [if_neg hx, if_neg hx]
      rfl

/-- amendedInner is the trailing-field validation shared by the branches of
the equivalence proof below. -/
def amendedInner (d1v c : Nat) (d2 : GoStr) : Option (Nat × Nat × GoStr) :=
  if d2 = [] then none
  else if d2.all isDigitByte then
    if 2 ≤ d1v ∧ d1v ≤ digitsVal d2 ∧ 2 ≤ digitsVal d2 ∧ digitsVal d2 ≤ 26 ∧
        65 ≤ c ∧ c - 65 < digitsVal d2 then
      some (d1v, digitsVal d2, [c])
    else none
  else none

theorem extract_align_core (d1v c : Nat) (d2 : GoStr) :
    (match atoiCore d2 false with
     | none => (none : Option (Nat × Nat × GoStr))
     | some tc =>
       if tc < 2 ∨ 26 < tc then none
       else if (d1v : Int) < 2 ∨ tc < (d1v : Int) then none
       else if (c : Int) < 65 ∨ 65 + tc - 1 < (c : Int) then none
       else some (((d1v : Int)).toNat, tc.toNat, [c]))
    = amendedInner d1v c d2 := by
  rw [amendedInner]
  by_cases h0 : d2 = []
  · rw [if_pos h0]
    subst h0
    rfl
  rw [if_neg h0]
  by_cases h1 : d2.all isDigitByte = true
  · rw [if_pos h1, atoiCore, if_neg h0, if_pos h1]
    by_cases h2 : (digitsVal d2 : Int) ≤ int64MaxNat + (if false then 1 else 0)
    · rw [if_pos h2]
      by_cases hcond : 2 ≤ d1v ∧ d1v ≤ digitsVal d2 ∧ 2 ≤ digitsVal d2 ∧
          digitsVal d2 ≤ 26 ∧ 65 ≤ c ∧ c - 65 < digitsVal d2
      · rw [if_pos hcond]
        obtain ⟨c1, c2, c3, c4, c5, c6⟩ := hcond
        have c6b : c < 65 + digitsVal d2 := by omega
        rw [show (if (false : Bool) then -((digitsVal d2 : Int)) else ((digitsVal d2 : Int)))
            = ((digitsVal d2 : Int)) from rfl]
        show (if ((digitsVal d2 : Int)) < 2 ∨ 26 < ((digitsVal d2 : Int)) then none
          else if (d1v : Int) < 2 ∨ ((digitsVal d2 : Int)) < (d1v : Int) then none
          else if (c : Int) < 65 ∨ 65 + ((digitsVal d2 : Int)) - 1 < (c : Int) then none
          else some (((d1v : Int)).toNat, ((digitsVal d2 : Int)).toNat, [c]))
          = some (d1v, digitsVal d2, [c])
        rw [if_neg (by push_cast; omega), if_neg (by push_cast; omega),
          if_neg (by push_cast; omega)]
        simp
      · rw [if_neg hcond]
        rw [show (if (false : Bool) then -((digitsVal d2 : Int)) else ((digitsVal d2 : Int)))
            = ((digitsVal d2 : Int)) from rfl]
        show (if ((digitsVal d2 : Int)) < 2 ∨ 26 < ((digitsVal d2 : Int)) then none
          else if (d1v : Int) < 2 ∨ ((digitsVal d2 : Int)) < (d1v : Int) then none
          else if (c : Int) < 65 ∨ 65 + ((digitsVal d2 : Int)) - 1 < (c : Int) then none
          else some (((d1v : Int)).toNat, ((digitsVal d2 : Int)).toNat, [c]))
          = none
        by_cases g1 : ((digitsVal d2 : Int)) < 2 ∨ 26 < ((digitsVal d2 : Int))
        · rw [if_pos g1]
        · rw [if_neg g1]
          by_cases g2 : (d1v : Int) < 2 ∨ ((digitsVal d2 : Int)) < (d1v : Int)
          · rw [if_pos g2]
          · rw [if_neg g2]
            have g3 : (c : Int) < 65 ∨ 65 + ((digitsVal d2 : Int)) - 1 < (c : Int) := by
              push_neg at g1 g2
              by_contra g3
              push_neg at g3
              exact hcond ⟨by omega, by omega, by omega, by omega, by omega, by omega⟩
            rw [if_pos g3]
    · rw [if_neg h2]
      have hbig : 26 < digitsVal d2 := by
        have h26 : ((26 : Nat) : Int) ≤ (int64MaxNat : Int) := by
          push_cast
          decide
        push_cast at h2 h26
        omega
      rw [if_neg (by omega)]
  · rw [if_neg h1, atoiCore, if_neg h0, if_neg h1]

theorem amendedInner_none_of_big (d1v c : Nat) (d2 : GoStr) (h : 26 < d1v) :
    amendedInner d1v c d2 = none := by
  rw [amendedInner]
  by_cases h0 : d2 = []
  · rw [if_pos h0]
  rw [if_neg h0]
  by_cases h1 : d2.all isDigitByte = true
  · rw [if_pos h1, if_neg (by omega)]
  · rw [if_neg h1]

theorem amendedLabelParse_cons (l : GoStr) (c : Nat) (rest : GoStr)
    (hdrop : l.drop (l.takeWhile isDigitByte).length = c :: rest)
    (hne : l.takeWhile isDigitByte ≠ []) :
    amendedLabelParse l = amendedInner (digitsVal (l.takeWhile isDigitByte)) c
      (if rest.headD 0 = 43 then rest.tail else rest) := by
  simp only [amendedLabelParse, hdrop]
  rw [if_neg hne, amendedInner]

/-- C5 amended: extractFromCollectionLabel accepts exactly the labels of the
amended pattern, digits then an uppercase letter then an optional plus sign
then digits with the claimed range constraints, and returns the parsed
values. -/
theorem extract_label_eq_amended (l : GoStr) :
    extractFromCollectionLabel l = amendedLabelParse l := by
  have htake : l.take (l.takeWhile isDigitByte).length = l.takeWhile isDigitByte :=
    (List.prefix_iff_eq_take.mp (List.takeWhile_prefix _)).symm
  have htwdig : ∀ x ∈ l.takeWhile isDigitByte, isDigitByte x = true :=
    fun x hx => List.mem_takeWhile_imp hx
  have hle : (l.takeWhile isDigitByte).length ≤ l.length :=
    (List.takeWhile_prefix _).sublist.length_le
  cases hdrop : l.drop (l.takeWhile isDigitByte).length with
  | nil =>
    have hlen : l.length ≤ (l.takeWhile isDigitByte).length := by
      have h2 := congrArg List.length hdrop
      rw [List.length_drop] at h2
      simp only [List.length_nil] at h2
      omega
    have hR : amendedLabelParse l = none := by
      simp only [amendedLabelParse, hdrop]
    have hL : extractFromCollectionLabel l = none := by
      rw [extractFromCollectionLabel]
      by_cases h3 : l.length < 3
      · rw [if_pos h3]
      · rw [if_neg h3, if_pos (Or.inr (by omega))]
    rw [hL, hR]
  | cons c rest =>
    have hlen : l.length = (l.takeWhile isDigitByte).length + 1 + rest.length := by
      have h2 := congrArg List.length hdrop
      rw [List.length_drop] at h2
      simp only [List.length_cons] at h2
      omega
    have hdropi1 : l.drop ((l.takeWhile isDigitByte).length + 1) = rest := by
      have h2 : (l.drop (l.takeWhile isDigitByte).length).drop 1
          = l.drop ((l.takeWhile isDigitByte).length + 1) := List.drop_drop 1 _ l
      rw [← h2, hdrop]
      rfl
    by_cases hd1 : l.takeWhile isDigitByte = []
    · have hR : amendedLabelParse l = none := by
        simp only [amendedLabelParse, hdrop]
        simp [hd1]
      have hL : extractFromCollectionLabel l = none := by
        rw [extractFromCollectionLabel]
        by_cases h3 : l.length < 3
        · rw [if_pos h3]
        · rw [if_neg h3, if_pos (Or.inl (by rw [hd1]; rfl))]
      rw [hL, hR]
    · have hi1 : 1 ≤ (l.takeWhile isDigitByte).length := List.length_pos.mpr hd1
      cases rest with
      | nil =>
        have hR : amendedLabelParse l = none := by
          simp only [amendedLabelParse, hdrop]
          simp [hd1]
        have hL : extractFromCollectionLabel l = none := by
          rw [extractFromCollectionLabel]
          by_cases h3 : l.length < 3
          · rw [if_pos h3]
          · rw [if_neg h3, if_pos (Or.inr (by simp at hlen; omega))]
        rw [hL, hR]
      | cons r0 rs =>
        have hgate : ¬((l.takeWhile isDigitByte).length = 0
            ∨ l.length - 1 ≤ (l.takeWhile isDigitByte).length) := by
          simp only [List.length_cons] at hlen
          push_neg
          exact ⟨by omega, by omega⟩
        have h3 : ¬(l.length < 3) := by
          simp only [List.length_cons] at hlen
          omega
        have hA := atoi_digits_eq (l.takeWhile isDigitByte) hd1 (List.all_eq_true.mpr htwdig)
        by_cases hov : digitsVal (l.takeWhile isDigitByte) ≤ int64MaxNat
        · rw [if_pos hov] at hA
          rw [extractFromCollectionLabel, if_neg h3, if_neg hgate, htake, hdropi1, hA, hdrop]
          by_cases h43 : r0 = 43
          · subst h43
            have hatoi : atoi (43 :: rs) = atoiCore rs false := by
              rw [atoi, if_pos rfl]
            rw [hatoi, amendedLabelParse_cons l c (43 :: rs) hdrop hd1]
            have hd2 : (if (43 :: rs).headD 0 = 43 then (43 :: rs).tail else 43 :: rs)
                = rs := by simp
            rw [hd2, ← extract_align_core (digitsVal (l.takeWhile isDigitByte)) c rs]
            cases atoiCore rs false with
            | none => rfl
            | some v => rfl
          · by_cases h45 : r0 = 45
            · subst h45
              have hatoi : atoi (45 :: rs) = atoiCore rs true := by
                rw [atoi, if_neg (by omega), if_pos rfl]
              rw [hatoi, amendedLabelParse_cons l c (45 :: rs) hdrop hd1]
              have hd2 : (if (45 :: rs).headD 0 = 43 then (45 :: rs).tail else 45 :: rs)
                  = 45 :: rs := by simp
              have hamd : amendedInner (digitsVal (l.takeWhile isDigitByte)) c (45 :: rs)
                  = none := by
                rw [amendedInner, if_neg (by simp)]
                have : (45 :: rs).all isDigitByte = false := by
                  simp [isDigitByte]
                rw [this]
                simp
              rw [hd2, hamd]
              cases hct : atoiCore rs true with
              | none => rfl
              | some v =>
                have hv := atoiCore_true_nonpos rs v hct
                show (if v < 2 ∨ 26 < v then none
                  else if ((digitsVal (l.takeWhile isDigitByte) : Int)) < 2
                      ∨ v < ((digitsVal (l.takeWhile isDigitByte) : Int)) then none
                  else if (c : Int) < 65 ∨ 65 + v - 1 < (c : Int) then none
                  else some ((((digitsVal (l.takeWhile isDigitByte) : Int))).toNat,
                    v.toNat, [c]))
                  = none
                rw [if_pos (Or.inl (by omega))]
            · have hatoi : atoi (r0 :: rs) = atoiCore (r0 :: rs) false := by
                rw [atoi, if_neg h43, if_neg h45]
              rw [hatoi, amendedLabelParse_cons l c (r0 :: rs) hdrop hd1]
              have hd2 : (if (r0 :: rs).headD 0 = 43 then (r0 :: rs).tail else r0 :: rs)
                  = r0 :: rs := by simp [h43]
              rw [hd2]
              rw [← extract_align_core (digitsVal (l.takeWhile isDigitByte)) c (r0 :: rs)]
              cases atoiCore (r0 :: rs) false with
              | none => rfl
              | some v => rfl
        · rw [if_neg hov] at hA
          rw [extractFromCollectionLabel, if_neg h3, if_neg hgate, htake, hA,
            amendedLabelParse_cons l c (r0 :: rs) hdrop hd1]
          have hbig : 26 < digitsVal (l.takeWhile isDigitByte) := by
            have h26 : (26 : Nat) ≤ int64MaxNat := by decide
            omega
          rw [amendedInner_none_of_big _ c _ hbig]

theorem extract_label_eq_amended_demo :
    extractFromCollectionLabel [50, 65, 43, 51] = some (2, 3, [65])
    ∧ specLabelPattern [50, 65, 43, 51] = false := by
  constructor
  · decide
  · decide

/-! Characterization of a successful encodeOneChunk run, toward the
round-trip theorem for claim C1. -/

theorem getD_indep {α : Type} (l : List α) (t : Nat) (d1 d2 : α)
    (h : t < l.length) : l.getD t d1 = l.getD t d2 := by
  induction l generalizing t with
  | nil => simp at h
  | cons x r ih =>
    cases t with
    | zero => rfl
    | succ j =>
      simp only [List.getD_cons_succ]
      exact ih j (by simpa using h)

theorem getD_append_length {α : Type} (a : List α) (x : α) (r : List α) (d : α) :
    (a ++ x :: r).getD a.length d = x := by
  induction a with
  | nil => rfl
  | cons y t ih => simpa using ih

/-- shareOf is the share encodeOneChunk writes for one collection letter and
one subset: the entry of the subset's cipher tuple at the letter's position
inside the subset. -/
def shareOf (cm : List (GoStr × List GoStr)) (letterByte : Nat) (perm : GoStr) : GoStr :=
  ((lookupCipher cm perm).getD []).getD
    ((perm.findIdx? (fun x => x = letterByte)).getD 0) []

theorem collectShares_ok (cm : List (GoStr × List GoStr)) (letterByte : Nat)
    (perms : List GoStr)
    (h : ∀ perm ∈ perms,
      (∃ t, perm.findIdx? (fun x => x = letterByte) = some t ∧
        ∃ cipher, lookupCipher cm perm = some cipher ∧ t < cipher.length)) :
    collectShares cm [letterByte] perms = Except.ok (perms.map (shareOf cm letterByte)) := by
  induction perms with
  | nil => rfl
  | cons perm rest ih =>
    obtain ⟨t, hfind, cipher, hlook, htl⟩ := h perm (List.mem_cons_self _ _)
    have hidx : permutationIndexFn perm [letterByte] = some t := by
      rw [permutationIndexFn, if_neg (by simp)]
      simpa using hfind
    have hget : cipher.get? t = some (cipher.getD t []) := by
      rw [List.get?_eq_getElem?, List.getD_eq_getElem?_getD]
      cases hx : cipher[t]? with
      | none =>
        have := List.getElem?_eq_none_iff.mp hx
        omega
      | some v => rfl
    have hrest := ih (fun q hq => h q (List.mem_cons_of_mem _ hq))
    have hshare : cipher.getD t [] = shareOf cm letterByte perm := by
      rw [shareOf, hlook, hfind]
      rfl
    rw [collectShares, hidx]
    simp only [hlook, hget, hrest, List.map_cons, hshare]

/-- cipherMapFor abbreviates the cipher table generated for one chunk. -/
def cipherMapFor (p : Pad) (d : GoStr) (rng : Nat → Nat) (pos : Nat) :
    List (GoStr × List GoStr) :=
  (genCiphers (p.RequiredCopies - 1) p.CipherKeys d rng pos).fst

theorem participating_elem_length (K N : Nat) (lab perm : GoStr)
    (hperm : perm ∈ participating K N lab) : perm.length = K := by
  obtain ⟨c, hc, _, rfl⟩ := (mem_participating K N lab perm).mp hperm
  rw [flatten_length_uniform c 1 (allCombos_elem_length_one K N c hc)]
  rw [allCombos_elem_length K N c hc]
  omega

theorem shareOf_conditions (N K : Nat) (h2 : 2 ≤ K) (hKN : K ≤ N) (hN : N ≤ 26)
    (i : Nat) (hi : i < N) (d : GoStr) (rng : Nat → Nat) (pos : Nat) :
    ∀ perm ∈ participating K N [65 + i],
      (∃ t, perm.findIdx? (fun x => x = (65 + i)) = some t ∧
        ∃ cipher, lookupCipher (cipherMapFor (padMk N K) d rng pos) perm = some cipher ∧
          t < cipher.length) := by
  intro perm hperm
  have hmem := (mem_participating_iff_id K N i perm).mp hperm
  obtain ⟨t, hfind, htl, _⟩ := findIdx?_eq_mem perm (65 + i) 0 hmem.2
  obtain ⟨pads, hpl, hplens, hlook⟩ :=
    lookupCipher_genCiphers ((padMk N K).RequiredCopies - 1) (padMk N K).CipherKeys
      d rng perm hmem.1 pos
  refine ⟨t, hfind, cipherTuple d pads, hlook, ?_⟩
  have hplen : perm.length = K := participating_elem_length K N [65 + i] perm hperm
  have : (cipherTuple d pads).length = pads.length + 1 := by
    rw [cipherTuple]
    rfl
  rw [this, hpl]
  show t < (padMk N K).RequiredCopies - 1 + 1
  have hrc : (padMk N K).RequiredCopies = K := rfl
  rw [hrc]
  omega

theorem shareOf_length (N K : Nat) (d : GoStr) (rng : Nat → Nat) (pos : Nat)
    (letterByte : Nat) (perm : GoStr)
    (hperm : perm ∈ (padMk N K).CipherKeys) :
    (shareOf (cipherMapFor (padMk N K) d rng pos) letterByte perm).length = d.length ∨
      shareOf (cipherMapFor (padMk N K) d rng pos) letterByte perm = [] := by
  obtain ⟨pads, hpl, hplens, hlook⟩ :=
    lookupCipher_genCiphers ((padMk N K).RequiredCopies - 1) (padMk N K).CipherKeys
      d rng perm hperm pos
  have hlook2 : lookupCipher (cipherMapFor (padMk N K) d rng pos) perm
      = some (cipherTuple d pads) := hlook
  rw [shareOf, hlook2]
  simp only [Option.getD_some]
  by_cases ht : ((perm.findIdx? (fun x => x = letterByte)).getD 0) < (cipherTuple d pads).length
  · left
    exact cipherTuple_length d pads hplens _ (getD_mem_of_lt _ _ _ ht)
  · right
    rw [List.getD_eq_getElem?_getD]
    rw [List.getElem?_eq_none (by omega)]
    rfl

theorem zipWith_append_assoc (a b c : List GoStr) :
    List.zipWith (fun x r => x ++ r) (List.zipWith (fun x r => x ++ r) a b) c
      = List.zipWith (fun x r => x ++ r) a (List.zipWith (fun x r => x ++ r) b c) := by
  induction a generalizing b c with
  | nil => simp
  | cons x xs ih =>
    cases b with
    | nil => simp
    | cons y ys =>
      cases c with
      | nil => simp
      | cons z zs =>
        simp only [List.zipWith_cons_cons, List.append_assoc]
        exact congrArg _ (ih ys zs)

theorem range_map_nil (n : Nat) :
    (List.range n).map (fun _ => ([] : GoStr)) = List.replicate n [] := by
  induction n with
  | zero => rfl
  | succ m ih =>
    rw [List.range_succ, List.map_append, ih, List.replicate_succ']
    rfl

theorem zipWith_append_replicate_nil_right (a : List GoStr) (n : Nat) (h : a.length = n) :
    List.zipWith (fun x r => x ++ r) a (List.replicate n []) = a := by
  induction a generalizing n with
  | nil => simp
  | cons x xs ih =>
    cases n with
    | zero => simp at h
    | succ m =>
      rw [List.replicate_succ, List.zipWith_cons_cons, List.append_nil,
        ih m (by simpa using h)]

theorem zipWith_append_replicate_nil_left (a : List GoStr) (n : Nat) (h : a.length = n) :
    List.zipWith (fun x r => x ++ r) (List.replicate n []) a = a := by
  induction a generalizing n with
  | nil => simp
  | cons x xs ih =>
    cases n with
    | zero => simp at h
    | succ m =>
      rw [List.replicate_succ, List.zipWith_cons_cons, List.nil_append,
        ih m (by simpa using h)]

/-- recordFor is the record collection i emits for one chunk of data d with
chunk number c, with the cipher table drawn from stream position pos: the
length-prefixed chunk name followed by the shares of the participating
subsets in order. -/
def recordFor (N K : Nat) (d : GoStr) (rng : Nat → Nat) (pos c i : Nat) : GoStr :=
  (buildChunkName (buildCollectionLabel K N [65 + i]) c d.length).length % 256
    :: buildChunkName (buildCollectionLabel K N [65 + i]) c d.length
    ++ ((participating K N [65 + i]).map
        (shareOf (cipherMapFor (padMk N K) d rng pos) (65 + i))).flatten

theorem recordBytes_ok (N K : Nat) (h2 : 2 ≤ K) (hKN : K ≤ N) (hN : N ≤ 26)
    (i : Nat) (hi : i < N) (d : GoStr) (rng : Nat → Nat) (pos c : Nat)
    (ce : GoStr → Nat → Bool) :
    recordBytes (padMk N K) (cipherMapFor (padMk N K) d rng pos)
        (buildCollectionLabel K N [65 + i]) c d.length ce
      = Except.ok (recordFor N K d rng pos c i) := by
  have hcoll := collectShares_ok (cipherMapFor (padMk N K) d rng pos) (65 + i)
    (participating K N [65 + i]) (shareOf_conditions N K h2 hKN hN i hi d rng pos)
  have hfield : (padMk N K).Permutations [65 + i] = participating K N [65 + i] := rfl
  rw [recordBytes, extract_build_label K N i h2 hKN hN hi]
  simp only [hfield, hcoll]
  rfl

theorem buildAllRecords_ok (N K : Nat) (h2 : 2 ≤ K) (hKN : K ≤ N) (hN : N ≤ 26)
    (d : GoStr) (rng : Nat → Nat) (pos c : Nat) (ce : GoStr → Nat → Bool) :
    ∀ (idxs : List Nat), (∀ i ∈ idxs, i < N) →
    buildAllRecords (padMk N K) (cipherMapFor (padMk N K) d rng pos) c d.length ce
        (idxs.map (fun i => buildCollectionLabel K N [65 + i]))
      = Except.ok (idxs.map (recordFor N K d rng pos c)) := by
  intro idxs
  induction idxs with
  | nil => intro _; rfl
  | cons i rest ih =>
    intro hb
    rw [List.map_cons, buildAllRecords,
      recordBytes_ok N K h2 hKN hN i (hb i (List.mem_cons_self _ _)) d rng pos c ce,
      ih (fun j hj => hb j (List.mem_cons_of_mem _ hj))]
    rfl

theorem encodeOneChunk_ok (N K : Nat) (h2 : 2 ≤ K) (hKN : K ≤ N) (hN : N ≤ 26)
    (d : GoStr) (c : Nat) (rng : Nat → Nat) (pos : Nat) (ce : GoStr → Nat → Bool) :
    encodeOneChunk (padMk N K) d c rng pos ce
      = Except.ok ((List.range N).map (recordFor N K d rng pos c),
          (genCiphers (K - 1) (padMk N K).CipherKeys d rng pos).snd) := by
  have hcolls : (padMk N K).Collections
      = (List.range N).map (fun i => buildCollectionLabel K N [65 + i]) := rfl
  have hrecords := buildAllRecords_ok N K h2 hKN hN d rng pos c ce (List.range N)
    (fun i hi => List.mem_range.mp hi)
  rw [encodeOneChunk]
  simp only [hcolls]
  have hmk : buildAllRecords (padMk N K)
      (genCiphers ((padMk N K).RequiredCopies - 1) (padMk N K).CipherKeys d rng pos).fst
      c d.length ce ((List.range N).map (fun i => buildCollectionLabel K N [65 + i]))
      = Except.ok ((List.range N).map (recordFor N K d rng pos c)) := hrecords
  rw [hmk]
  rfl

/-- streamsFrom is the reference value of the encoder's remaining output:
the concatenation, per collection, of the records of all chunks cut from the
given input suffix. -/
def streamsFrom (N K B : Nat) (rng : Nat → Nat) (input : GoStr) (c pos : Nat) :
    List GoStr :=
  if h : B = 0 ∨ input = [] then (List.range N).map (fun _ => [])
  else
    List.zipWith (fun a r => a ++ r)
      ((List.range N).map (recordFor N K (input.take B) rng pos c))
      (streamsFrom N K B rng (input.drop B) (c + 1)
        (genCiphers (K - 1) (padMk N K).CipherKeys (input.take B) rng pos).snd)
termination_by input.length
decreasing_by
  push_neg at h
  have h1 : 1 ≤ input.length := List.length_pos.mpr h.2
  simp only [List.length_drop]
  omega

theorem length_streamsFrom (N K B : Nat) (rng : Nat → Nat) :
    ∀ (bound : Nat) (input : GoStr) (c pos : Nat), input.length ≤ bound →
    (streamsFrom N K B rng input c pos).length = N := by
  intro bound
  induction bound with
  | zero =>
    intro input c pos h
    have : input = [] := List.length_eq_zero.mp (Nat.le_zero.mp h)
    subst this
    rw [streamsFrom]
    simp
  | succ m ih =>
    intro input c pos h
    rw [streamsFrom]
    by_cases hc : B = 0 ∨ input = []
    · rw [dif_pos hc]
      simp
    · rw [dif_neg hc]
      push_neg at hc
      have h1 : 1 ≤ input.length := List.length_pos.mpr hc.2
      have h2 : 1 ≤ B := by omega
      rw [List.length_zipWith, List.length_map, List.length_range]
      rw [ih (input.drop B) (c + 1) _ (by simp only [List.length_drop]; omega)]
      simp

theorem encodeLoop_step (p : Pad) (B : Nat) (rng : Nat → Nat)
    (ce : GoStr → Nat → Bool) (m : Nat) (input : GoStr) (c pos : Nat)
    (acc R : List GoStr) (P2 : Nat)
    (hpos : 0 < (input.take B).length)
    (hok : encodeOneChunk p (input.take B) c rng pos ce = Except.ok (R, P2)) :
    encodeLoop p B rng ce (m + 1) input c pos acc
      = (if (input.take B).length < B
         then some (Except.ok (List.zipWith (fun a r => a ++ r) acc R))
         else encodeLoop p B rng ce m (input.drop B) (c + 1) P2
           (List.zipWith (fun a r => a ++ r) acc R)) := by
  rw [encodeLoop, if_pos hpos, hok]

theorem encodeLoop_ok (N K B : Nat) (h2 : 2 ≤ K) (hKN : K ≤ N) (hN : N ≤ 26)
    (hB : 1 ≤ B) (rng : Nat → Nat) (ce : GoStr → Nat → Bool) :
    ∀ (fuel : Nat) (input : GoStr) (c pos : Nat) (acc : List GoStr),
    input.length < fuel → acc.length = N →
    encodeLoop (padMk N K) B rng ce fuel input c pos acc
      = some (Except.ok (List.zipWith (fun a r => a ++ r) acc
          (streamsFrom N K B rng input c pos))) := by
  intro fuel
  induction fuel with
  | zero => intro input c pos acc h _; omega
  | succ m ih =>
    intro input c pos acc hlen hacc
    by_cases hnil : input = []
    · subst hnil
      rw [encodeLoop, if_neg (by simp), if_pos (by omega)]
      rw [streamsFrom]
      rw [dif_pos (Or.inr rfl), range_map_nil,
        zipWith_append_replicate_nil_right acc N hacc]
    · have hpos : 0 < (input.take B).length := by
        rw [List.length_take]
        have : 1 ≤ input.length := List.length_pos.mpr hnil
        omega
      rw [encodeLoop_step (padMk N K) B rng ce m input c pos acc
        ((List.range N).map (recordFor N K (input.take B) rng pos c))
        ((genCiphers (K - 1) (padMk N K).CipherKeys (input.take B) rng pos).snd)
        hpos (encodeOneChunk_ok N K h2 hKN hN (input.take B) c rng pos ce)]
      by_cases hshort : (input.take B).length < B
      · rw [if_pos hshort]
        have hlenlt : input.length < B := by
          rw [List.length_take] at hshort
          omega
        have hdropnil : input.drop B = [] := List.drop_eq_nil_of_le (by omega)
        have houter : streamsFrom N K B rng input c pos
            = List.zipWith (fun a r => a ++ r)
              ((List.range N).map (recordFor N K (input.take B) rng pos c))
              (streamsFrom N K B rng (input.drop B) (c + 1)
                (genCiphers (K - 1) (padMk N K).CipherKeys (input.take B) rng pos).snd) := by
          rw [streamsFrom]
          rw [dif_neg (by push_neg; exact ⟨by omega, hnil⟩)]
        have hinner : streamsFrom N K B rng (input.drop B) (c + 1)
            (genCiphers (K - 1) (padMk N K).CipherKeys (input.take B) rng pos).snd
            = List.replicate N [] := by
          rw [hdropnil, streamsFrom]
          rw [dif_pos (Or.inr rfl), range_map_nil]
        rw [houter, hinner, zipWith_append_replicate_nil_right _ N (by simp)]
      · rw [if_neg hshort]
        have hBle : B ≤ input.length := by
          rw [List.length_take] at hshort
          omega
        rw [ih (input.drop B) (c + 1)
          (genCiphers (K - 1) (padMk N K).CipherKeys (input.take B) rng pos).snd
          (List.zipWith (fun a r => a ++ r) acc
            ((List.range N).map (recordFor N K (input.take B) rng pos c)))
          (by simp only [List.length_drop]; omega)
          (by rw [List.length_zipWith, hacc]; simp)]
        rw [zipWith_append_assoc]
        have houter : streamsFrom N K B rng input c pos
            = List.zipWith (fun a r => a ++ r)
              ((List.range N).map (recordFor N K (input.take B) rng pos c))
              (streamsFrom N K B rng (input.drop B) (c + 1)
                (genCiphers (K - 1) (padMk N K).CipherKeys (input.take B) rng pos).snd) := by
          rw [streamsFrom]
          rw [dif_neg (by push_neg; exact ⟨by omega, hnil⟩)]
        rw [houter]

theorem PadEncode_ok (N K oc : Nat) (h2 : 2 ≤ K) (hKN : K ≤ N) (hN : N ≤ 26)
    (hB : 1 ≤ oc / (padMk N K).PermutationCount) (input : GoStr)
    (rng : Nat → Nat) (ce : GoStr → Nat → Bool) :
    PadEncode (padMk N K) oc input rng ce
      = some (Except.ok (streamsFrom N K (oc / (padMk N K).PermutationCount)
          rng input 1 0)) := by
  rw [PadEncode]
  have hacc : ((padMk N K).Collections.map (fun _ => ([] : GoStr))).length = N := by
    have : (padMk N K).Collections.length = N := by
      show ((List.range N).map _).length = N
      simp
    simpa using this
  rw [encodeLoop_ok N K _ h2 hKN hN hB rng ce (input.length + 1) input 1 0 _
    (by omega) hacc]
  have hmap : (padMk N K).Collections.map (fun _ => ([] : GoStr))
      = List.replicate N [] := by
    have h1 : ∀ L : List GoStr, L.map (fun _ => ([] : GoStr))
        = List.replicate L.length [] := by
      intro L
      induction L with
      | nil => rfl
      | cons x t iht => simp [List.replicate_succ, iht]
    have hc2 : (padMk N K).Collections.length = N := by
      show ((List.range N).map _).length = N
      simp
    rw [h1, hc2]
  rw [hmap, zipWith_append_replicate_nil_left _ N
    (length_streamsFrom N K _ rng input.length input 1 0 (le_refl _))]

/-! Decoder walk, toward the round-trip theorem. -/

theorem shareOf_length_participating (N K : Nat) (h2 : 2 ≤ K) (hKN : K ≤ N)
    (hN : N ≤ 26) (i : Nat) (hi : i < N) (d : GoStr) (rng : Nat → Nat) (pos : Nat) :
    ∀ perm ∈ participating K N [65 + i],
      (shareOf (cipherMapFor (padMk N K) d rng pos) (65 + i) perm).length = d.length := by
  intro perm hperm
  obtain ⟨t, hfind, cipher, hlook, htl⟩ :=
    shareOf_conditions N K h2 hKN hN i hi d rng pos perm hperm
  have hmem := (mem_participating_iff_id K N i perm).mp hperm
  obtain ⟨pads, hpl, hplens, hlook2⟩ :=
    lookupCipher_genCiphers ((padMk N K).RequiredCopies - 1) (padMk N K).CipherKeys
      d rng perm hmem.1 pos
  have hlook3 : lookupCipher (cipherMapFor (padMk N K) d rng pos) perm
      = some (cipherTuple d pads) := hlook2
  have hcip : cipher = cipherTuple d pads := by
    rw [hlook3] at hlook
    exact (by simpa using hlook : cipherTuple d pads = cipher).symm
  subst hcip
  rw [shareOf, hlook3, hfind]
  simp only [Option.getD_some]
  exact cipherTuple_length d pads hplens _ (getD_mem_of_lt _ _ _ htl)

theorem participating_length_eq_permCount (N K : Nat) (h2 : 2 ≤ K) (hKN : K ≤ N)
    (i : Nat) (hi : i < N) :
    (participating K N [65 + i]).length = (padMk N K).PermutationCount := by
  have h1 := length_participating K N i (by omega) hi
  have h2b : (padMk N K).PermutationCount = UniqueSortedCombinationsCount K N := rfl
  rw [h1, h2b, permutationCount_eq K N (by omega) (by omega)]

theorem bodyFor_length (N K : Nat) (h2 : 2 ≤ K) (hKN : K ≤ N) (hN : N ≤ 26)
    (i : Nat) (hi : i < N) (d : GoStr) (rng : Nat → Nat) (pos : Nat) :
    (((participating K N [65 + i]).map
        (shareOf (cipherMapFor (padMk N K) d rng pos) (65 + i))).flatten).length
      = d.length * (padMk N K).PermutationCount := by
  rw [flatten_length_uniform _ d.length]
  · rw [List.length_map, participating_length_eq_permCount N K h2 hKN i hi]
    ring
  · intro x hx
    obtain ⟨perm, hperm, rfl⟩ := List.mem_map.mp hx
    exact shareOf_length_participating N K h2 hKN hN i hi d rng pos perm hperm

theorem int64MaxNat_lt_pow : int64MaxNat < 10 ^ 19 := by decide

theorem chunkName_length_le (K N i c b : Nat) (hK : K ≤ 26) (hN : N ≤ 26)
    (hc : c ≤ int64MaxNat) (hb : b ≤ int64MaxNat) :
    (buildChunkName (buildCollectionLabel K N [65 + i]) c b).length ≤ 255 := by
  have hiK : (itoa K).length ≤ 2 := itoa_length_le K 2 (by omega) (by omega)
  have hiN : (itoa N).length ≤ 2 := itoa_length_le N 2 (by omega) (by omega)
  have hic : (itoa c).length ≤ 19 := itoa_length_le c 19 (by omega)
    (by have := int64MaxNat_lt_pow; omega)
  have hib : (itoa b).length ≤ 19 := itoa_length_le b 19 (by omega)
    (by have := int64MaxNat_lt_pow; omega)
  rw [buildChunkName, buildCollectionLabel]
  simp only [List.length_append, List.length_cons, List.length_singleton,
    List.length_nil]
  omega

theorem flatten_map_singleton (l : List Nat) (f : Nat → Nat) :
    ((l.map (fun j => [f j])).flatten) = l.map f := by
  induction l with
  | nil => rfl
  | cons x t ih => simp [ih]

theorem sorted_lt_sublist_range' :
    ∀ (l : List Nat) (a b : Nat), List.Pairwise (fun x y => x < y) l →
    (∀ x ∈ l, a ≤ x ∧ x < a + b) → l.Sublist (List.range' a b) := by
  intro l
  induction l with
  | nil => intro a b _ _; exact List.nil_sublist _
  | cons x xs ih =>
    intro a b hpw hbd
    obtain ⟨hax, hxb⟩ := hbd x (List.mem_cons_self _ _)
    have hxs : ∀ y ∈ xs, x + 1 ≤ y ∧ y < (x + 1) + (a + b - x - 1) := by
      intro y hy
      have hlt := (List.pairwise_cons.mp hpw).1 y hy
      have := (hbd y (List.mem_cons_of_mem _ hy)).2
      omega
    have hsub : xs.Sublist (List.range' (x + 1) (a + b - x - 1)) :=
      ih (x + 1) (a + b - x - 1) (List.pairwise_cons.mp hpw).2 hxs
    have hsplit : List.range' a (x - a) ++ List.range' x (b - (x - a))
        = List.range' a b := by
      have := List.range'_append a (x - a) (b - (x - a)) 1
      simp only [Nat.one_mul] at this
      rw [show a + (x - a) = x by omega] at this
      rw [show b - (x - a) + (x - a) = b by omega] at this
      exact this
    have hxr : List.range' x (b - (x - a)) = x :: List.range' (x + 1) (a + b - x - 1) := by
      rw [show b - (x - a) = (a + b - x - 1) + 1 by omega, List.range'_succ]
    have h1 : (x :: xs).Sublist (x :: List.range' (x + 1) (a + b - x - 1)) :=
      List.Sublist.cons₂ x hsub
    have h2 : (x :: List.range' (x + 1) (a + b - x - 1)).Sublist (List.range' a b) := by
      rw [← hsplit, ← hxr]
      exact List.sublist_append_right _ _
    exact h1.trans h2

theorem sorted_lt_sublist_range (l : List Nat) (n : Nat)
    (hpw : List.Pairwise (fun x y => x < y) l) (hbd : ∀ x ∈ l, x < n) :
    l.Sublist (List.range n) := by
  rw [List.range_eq_range']
  exact sorted_lt_sublist_range' l 0 n hpw (fun x hx => ⟨Nat.zero_le x, by
    have := hbd x hx
    omega⟩)

theorem readStreamChunk_ok (N K : Nat) (h2 : 2 ≤ K) (hKN : K ≤ N) (hN : N ≤ 26)
    (i : Nat) (hi : i < N) (d : GoStr) (hd : d ≠ []) (rng : Nat → Nat)
    (pos c : Nat) (hc1 : 1 ≤ c) (hc : c ≤ int64MaxNat)
    (hdlen : d.length ≤ int64MaxNat) (T : GoStr) (padOpt : Option Pad)
    (hpad : padOpt = none ∨ padOpt = some (padMk N K)) (nm lt : GoStr)
    (hnm : (nm = [] ∧ lt = [])
      ∨ (nm = buildCollectionLabel K N [65 + i] ∧ lt = [65 + i])) (dn : Bool) :
    readStreamChunk padOpt
      { rem := recordFor N K d rng pos c i ++ T, nextChunkNumber := c,
        collectionName := nm, collectionLetter := lt, done := dn }
      = Except.ok
        ({ rem := T, nextChunkNumber := c + 1,
           collectionName := buildCollectionLabel K N [65 + i],
           collectionLetter := [65 + i], done := false },
         some (((participating K N [65 + i]).map
           (shareOf (cipherMapFor (padMk N K) d rng pos) (65 + i))).flatten),
         some (padMk N K), some d.length) := by
  have hlab := extract_build_label K N i h2 hKN hN hi
  have hnocolon : (58 : Nat) ∉ buildCollectionLabel K N [65 + i] :=
    extractFromCollectionLabel_no_colon _ K N [65 + i] hlab
  have hd1 : 1 ≤ d.length := List.length_pos.mpr hd
  have hcn := extractFromChunkName_build (buildCollectionLabel K N [65 + i]) c
    d.length hnocolon hc1 hc hd1 hdlen
  have h255 : (buildChunkName (buildCollectionLabel K N [65 + i]) c d.length).length
      ≤ 255 := chunkName_length_le K N i c d.length (by omega) hN hc hdlen
  have hmod : (buildChunkName (buildCollectionLabel K N [65 + i]) c d.length).length % 256
      = (buildChunkName (buildCollectionLabel K N [65 + i]) c d.length).length :=
    Nat.mod_eq_of_lt (by omega)
  have hblen := bodyFor_length N K h2 hKN hN i hi d rng pos
  have hrec : recordFor N K d rng pos c i ++ T
      = (buildChunkName (buildCollectionLabel K N [65 + i]) c d.length).length % 256
        :: (buildChunkName (buildCollectionLabel K N [65 + i]) c d.length
            ++ (((participating K N [65 + i]).map
              (shareOf (cipherMapFor (padMk N K) d rng pos) (65 + i))).flatten ++ T)) := by
    rw [recordFor]
    simp [List.append_assoc]
  have hrestlen : ¬((buildChunkName (buildCollectionLabel K N [65 + i]) c d.length
        ++ (((participating K N [65 + i]).map
          (shareOf (cipherMapFor (padMk N K) d rng pos) (65 + i))).flatten ++ T)).length
      < (buildChunkName (buildCollectionLabel K N [65 + i]) c d.length).length % 256) := by
    rw [hmod]
    simp only [List.length_append]
    omega
  have htakename : ((buildChunkName (buildCollectionLabel K N [65 + i]) c d.length
        ++ (((participating K N [65 + i]).map
          (shareOf (cipherMapFor (padMk N K) d rng pos) (65 + i))).flatten ++ T)).take
      ((buildChunkName (buildCollectionLabel K N [65 + i]) c d.length).length % 256))
      = buildChunkName (buildCollectionLabel K N [65 + i]) c d.length := by
    rw [hmod]
    exact List.take_left _ _
  have hdropname : ((buildChunkName (buildCollectionLabel K N [65 + i]) c d.length
        ++ (((participating K N [65 + i]).map
          (shareOf (cipherMapFor (padMk N K) d rng pos) (65 + i))).flatten ++ T)).drop
      ((buildChunkName (buildCollectionLabel K N [65 + i]) c d.length).length % 256))
      = ((participating K N [65 + i]).map
          (shareOf (cipherMapFor (padMk N K) d rng pos) (65 + i))).flatten ++ T := by
    rw [hmod]
    exact List.drop_left _ _
  have hreqc : (padMk N K).RequiredCopies = K := rfl
  have htotc : (padMk N K).TotalCopies = N := rfl
  have hbodylen : ¬((((participating K N [65 + i]).map
        (shareOf (cipherMapFor (padMk N K) d rng pos) (65 + i))).flatten ++ T).length
      < d.length * (padMk N K).PermutationCount) := by
    simp only [List.length_append]
    omega
  have htakebody : ((((participating K N [65 + i]).map
        (shareOf (cipherMapFor (padMk N K) d rng pos) (65 + i))).flatten ++ T).take
      (d.length * (padMk N K).PermutationCount))
      = ((participating K N [65 + i]).map
          (shareOf (cipherMapFor (padMk N K) d rng pos) (65 + i))).flatten := by
    rw [← hblen]
    exact List.take_left _ _
  have hdropbody : ((((participating K N [65 + i]).map
        (shareOf (cipherMapFor (padMk N K) d rng pos) (65 + i))).flatten ++ T).drop
      (d.length * (padMk N K).PermutationCount)) = T := by
    rw [← hblen]
    exact List.drop_left _ _
  rw [hrec, readStreamChunk]
  simp only [hrestlen, if_false, htakename, hcn, hlab]
  have hnamecheck : ¬(nm ≠ [] ∧ nm ≠ buildCollectionLabel K N [65 + i]) := by
    rcases hnm with ⟨rfl, _⟩ | ⟨rfl, _⟩
    · simp
    · simp
  have hnmif : (if nm = [] then buildCollectionLabel K N [65 + i] else nm)
      = buildCollectionLabel K N [65 + i] := by
    rcases hnm with ⟨rfl, _⟩ | ⟨rfl, _⟩
    · simp
    · by_cases hx : buildCollectionLabel K N [65 + i] = []
      · rw [if_pos hx, hx]
      · rw [if_neg hx]
  have hltif : (if nm = [] then lt else lt) = lt := by
    by_cases hx : nm = []
    · rw [if_pos hx]
    · rw [if_neg hx]
  have hltval : (if nm = [] then [65 + i] else lt) = ([65 + i] : GoStr) := by
    rcases hnm with ⟨rfl, rfl⟩ | ⟨rfl, rfl⟩
    · simp
    · by_cases hx : buildCollectionLabel K N [65 + i] = []
      · rw [if_pos hx]
      · rw [if_neg hx]
  rcases hpad with rfl | rfl
  · simp only [PadInit_padMk N K h2 hKN hN, hnamecheck, if_false, hreqc, htotc,
      ne_eq, not_true_eq_false, not_false_eq_true, if_true, hdropname,
      hbodylen, htakebody, hdropbody, hnmif, hltval]
  · simp only [hnamecheck, if_false, hreqc, htotc,
      ne_eq, not_true_eq_false, not_false_eq_true, if_true, hdropname,
      hbodylen, htakebody, hdropbody, hnmif, hltval]

theorem singleton_le_of_le (a b : Nat) (h : a ≤ b) : ([a] : GoStr) ≤ [b] := by
  rcases Nat.lt_or_ge a b with hlt | hge
  · exact le_of_lt (List.Lex.rel hlt)
  · have : a = b := by omega
    subst this
    exact le_refl _

theorem getD_range_map {α : Type} (n j : Nat) (f : Nat → α) (dflt : α)
    (h : j < n) : ((List.range n).map f).getD j dflt = f j := by
  rw [List.getD_eq_getElem?_getD, List.getElem?_map, List.getElem?_range h]
  rfl

theorem map_eq_getD_range {α β : Type} (l : List α) (f : α → β) (dflt : α) :
    l.map f = (List.range l.length).map (fun t => f (l.getD t dflt)) := by
  induction l with
  | nil => rfl
  | cons x xs ih =>
    rw [List.map_cons, List.length_cons, List.range_succ_eq_map, List.map_cons,
      List.map_map]
    have h2 : ((fun t => f ((x :: xs).getD t dflt)) ∘ Nat.succ)
        = fun t => f (xs.getD t dflt) := by
      funext t
      simp [List.getD_cons_succ]
    rw [h2, ← ih]
    rfl

theorem getD_zipWith_append (A R : List GoStr) (j : Nat)
    (hA : j < A.length) (hR : j < R.length) :
    (List.zipWith (fun a r => a ++ r) A R).getD j []
      = A.getD j [] ++ R.getD j [] := by
  induction A generalizing R j with
  | nil => simp at hA
  | cons a as ih =>
    cases R with
    | nil => simp at hR
    | cons r rs =>
      cases j with
      | zero => rfl
      | succ t =>
        simp only [List.zipWith_cons_cons, List.getD_cons_succ]
        exact ih rs t (by simpa using hA) (by simpa using hR)

theorem streamsFrom_getD_nil (N K B : Nat) (rng : Nat → Nat) (c pos j : Nat) :
    (streamsFrom N K B rng [] c pos).getD j [] = [] := by
  rw [streamsFrom, dif_pos (Or.inr rfl), range_map_nil]
  rw [List.getD_eq_getElem?_getD, List.getElem?_replicate]
  by_cases h : j < N
  · rw [if_pos h]
    rfl
  · rw [if_neg h]
    rfl

theorem streamsFrom_getD (N K B : Nat) (hB : 1 ≤ B) (rng : Nat → Nat)
    (input : GoStr) (hin : input ≠ []) (c pos j : Nat) (hj : j < N) :
    (streamsFrom N K B rng input c pos).getD j []
      = recordFor N K (input.take B) rng pos c j
        ++ (streamsFrom N K B rng (input.drop B) (c + 1)
            (genCiphers (K - 1) (padMk N K).CipherKeys (input.take B) rng pos).snd).getD j [] := by
  conv_lhs => rw [streamsFrom]
  rw [dif_neg (by push_neg; exact ⟨by omega, hin⟩)]
  rw [getD_zipWith_append _ _ j (by simpa using hj)
    (by rw [length_streamsFrom N K B rng (input.drop B).length _ _ _ (le_refl _)]; exact hj)]
  rw [getD_range_map N j _ [] hj]

theorem readAllStreams_empty (sts : List DecState) :
    ∀ (padOpt : Option Pad) (lastB : Nat), (∀ st ∈ sts, st.rem = []) →
    readAllStreams padOpt lastB sts
      = Except.ok (sts.map (fun st => { st with done := true }),
          sts.map (fun _ => none), padOpt, lastB) := by
  induction sts with
  | nil => intro padOpt lastB _; rfl
  | cons st rest ih =>
    intro padOpt lastB h
    have hst : readStreamChunk padOpt st
        = Except.ok ({ st with done := true }, none, padOpt, none) := by
      rw [readStreamChunk, h st (List.mem_cons_self _ _)]
    rw [readAllStreams, hst]
    simp only [ih padOpt lastB (fun x hx => h x (List.mem_cons_of_mem _ hx))]
    rw [List.map_cons, List.map_cons]

theorem readAllStreams_ok (N K : Nat) (h2 : 2 ≤ K) (hKN : K ≤ N) (hN : N ≤ 26)
    (d : GoStr) (hd : d ≠ []) (rng : Nat → Nat) (pos c : Nat) (hc1 : 1 ≤ c)
    (hc : c ≤ int64MaxNat) (hdlen : d.length ≤ int64MaxNat) :
    ∀ (sel : List Nat), (∀ j ∈ sel, j < N) →
    ∀ (padOpt : Option Pad), (padOpt = none ∨ padOpt = some (padMk N K)) →
    ∀ (lastB : Nat) (Tf nmf ltf : Nat → GoStr),
    (∀ j ∈ sel, (nmf j = [] ∧ ltf j = [])
      ∨ (nmf j = buildCollectionLabel K N [65 + j] ∧ ltf j = [65 + j])) →
    readAllStreams padOpt lastB
      (sel.map (fun j =>
        { rem := recordFor N K d rng pos c j ++ Tf j, nextChunkNumber := c,
          collectionName := nmf j, collectionLetter := ltf j, done := false }))
    = Except.ok
        (sel.map (fun j =>
          { rem := Tf j, nextChunkNumber := c + 1,
            collectionName := buildCollectionLabel K N [65 + j],
            collectionLetter := [65 + j], done := false }),
         sel.map (fun j => some (((participating K N [65 + j]).map
           (shareOf (cipherMapFor (padMk N K) d rng pos) (65 + j))).flatten)),
         (if sel.isEmpty then padOpt else some (padMk N K)),
         (if sel.isEmpty then lastB else d.length)) := by
  intro sel
  induction sel with
  | nil =>
    intro _ padOpt _ lastB Tf nmf ltf _
    rfl
  | cons j rest ih =>
    intro hselN padOpt hpad lastB Tf nmf ltf hnl
    have hjN : j < N := hselN j (List.mem_cons_self _ _)
    have hstep := readStreamChunk_ok N K h2 hKN hN j hjN d hd rng pos c hc1 hc
      hdlen (Tf j) padOpt hpad (nmf j) (ltf j) (hnl j (List.mem_cons_self _ _)) false
    have hrec := ih (fun x hx => hselN x (List.mem_cons_of_mem _ hx))
      (some (padMk N K)) (Or.inr rfl) d.length Tf nmf ltf
      (fun x hx => hnl x (List.mem_cons_of_mem _ hx))
    rw [List.map_cons, readAllStreams, hstep]
    simp only [hrec, List.map_cons, List.isEmpty_cons, ite_self]
    rfl

theorem decodeXorLoop_walk (N K : Nat) (h2 : 2 ≤ K) (hKN : K ≤ N) (hN : N ≤ 26)
    (d : GoStr) (rng : Nat → Nat) (pos : Nat) (S : GoStr)
    (hS : S ∈ cipherKeys K N) (chunks : List (Option GoStr)) :
    ∀ (rest : List Nat) (t : Nat) (acc : GoStr),
    (∀ j ∈ rest, j < N) → (∀ j ∈ rest, (65 + j) ∈ S) →
    chunks.drop t = rest.map (fun j =>
      some (((participating K N [65 + j]).map
        (shareOf (cipherMapFor (padMk N K) d rng pos) (65 + j))).flatten)) →
    decodeXorLoop (padMk N K) chunks d.length S
      (rest.map (fun j => [65 + j])) t acc
    = Except.ok (List.foldl xorBytes acc
        (rest.map (fun j => shareOf (cipherMapFor (padMk N K) d rng pos) (65 + j) S))) := by
  intro rest
  induction rest with
  | nil => intro t acc _ _ _; rfl
  | cons j rest ih =>
    intro t acc hjN hjS hdrop
    have hj : j < N := hjN j (List.mem_cons_self _ _)
    have hfield : (padMk N K).Permutations [65 + j] = participating K N [65 + j] := rfl
    have hSp : S ∈ participating K N [65 + j] :=
      (mem_participating_iff_id K N j S).mpr ⟨hS, hjS j (List.mem_cons_self _ _)⟩
    have hne : ¬(participating K N [65 + j] = []) := by
      intro hnil
      rw [hnil] at hSp
      simp at hSp
    obtain ⟨pi, hfind, hpilt, hgetD⟩ :=
      findIdx?_eq_mem (participating K N [65 + j]) S [] hSp
    have hget : chunks.get? t
        = some (some (((participating K N [65 + j]).map
            (shareOf (cipherMapFor (padMk N K) d rng pos) (65 + j))).flatten)) := by
      rw [List.get?_eq_getElem?]
      have h0 : chunks[t]? = (chunks.drop t)[0]? := by
        rw [List.getElem?_drop, Nat.add_zero]
      rw [h0, hdrop, List.map_cons]
      simp
    have hLlens : ∀ x ∈ (participating K N [65 + j]).map
        (shareOf (cipherMapFor (padMk N K) d rng pos) (65 + j)), x.length = d.length := by
      intro x hx
      obtain ⟨perm, hperm, rfl⟩ := List.mem_map.mp hx
      exact shareOf_length_participating N K h2 hKN hN j hj d rng pos perm hperm
    have hLlen : (((participating K N [65 + j]).map
        (shareOf (cipherMapFor (padMk N K) d rng pos) (65 + j))).flatten).length
        = ((participating K N [65 + j]).map
            (shareOf (cipherMapFor (padMk N K) d rng pos) (65 + j))).length * d.length :=
      flatten_length_uniform _ _ hLlens
    have hpilt2 : pi < ((participating K N [65 + j]).map
        (shareOf (cipherMapFor (padMk N K) d rng pos) (65 + j))).length := by
      rw [List.length_map]
      exact hpilt
    have hguard : ¬((((participating K N [65 + j]).map
        (shareOf (cipherMapFor (padMk N K) d rng pos) (65 + j))).flatten).length
        < pi * d.length + d.length) := by
      rw [Nat.not_lt, hLlen]
      have h1 : pi * d.length + d.length = (pi + 1) * d.length :=
        (Nat.succ_mul pi d.length).symm
      rw [h1]
      exact Nat.mul_le_mul_right _ (by omega)
    have hslice : (((((participating K N [65 + j]).map
        (shareOf (cipherMapFor (padMk N K) d rng pos) (65 + j))).flatten).drop
          (pi * d.length)).take d.length)
        = shareOf (cipherMapFor (padMk N K) d rng pos) (65 + j) S := by
      rw [flatten_slice_uniform _ _ hLlens pi hpilt2]
      have hsome : (participating K N [65 + j])[pi]?
          = some ((participating K N [65 + j]).getD pi []) := by
        rw [List.getD_eq_getElem?_getD]
        cases hx : (participating K N [65 + j])[pi]? with
        | none =>
          have := List.getElem?_eq_none_iff.mp hx
          omega
        | some v => rfl
      rw [List.getD_eq_getElem?_getD, List.getElem?_map, hsome, hgetD]
      rfl
    have hrec := ih (t + 1)
      (xorBytes acc (shareOf (cipherMapFor (padMk N K) d rng pos) (65 + j) S))
      (fun x hx => hjN x (List.mem_cons_of_mem _ hx))
      (fun x hx => hjS x (List.mem_cons_of_mem _ hx))
      (by
        have : chunks.drop (t + 1) = (chunks.drop t).drop 1 := by
          rw [List.drop_drop]
        rw [this, hdrop, List.map_cons]
        rfl)
    rw [List.map_cons, decodeXorLoop]
    simp only [hfield, hne, if_false, hfind, hget, hguard, hslice, hrec,
      List.map_cons, List.foldl_cons]

theorem decodeLoop_ok (N K B : Nat) (h2 : 2 ≤ K) (hKN : K ≤ N) (hN : N ≤ 26)
    (hB : 1 ≤ B) (hBmax : B ≤ int64MaxNat) (rng : Nat → Nat) (p0 : Pad)
    (sel : List Nat) (hlen : sel.length = K)
    (hpw : List.Pairwise (fun a b => a < b) sel) (hselN : ∀ j ∈ sel, j < N) :
    ∀ (fuel : Nat) (input : GoStr) (c pos : Nat), input.length < fuel → 1 ≤ c →
    c + input.length ≤ int64MaxNat →
    ∀ (out : GoStr) (lastB : Nat) (padOpt : Option Pad),
    (padOpt = none ∨ padOpt = some (padMk N K)) →
    ∀ (nmf ltf : Nat → GoStr),
    (∀ j ∈ sel, (nmf j = [] ∧ ltf j = [])
      ∨ (nmf j = buildCollectionLabel K N [65 + j] ∧ ltf j = [65 + j])) →
    decodeLoop p0 fuel padOpt
      (sel.map (fun j =>
        { rem := (streamsFrom N K B rng input c pos).getD j [],
          nextChunkNumber := c, collectionName := nmf j,
          collectionLetter := ltf j, done := false }))
      lastB out
    = some (Except.ok (out ++ input)) := by
  intro fuel
  induction fuel with
  | zero => intro input c pos hfuel _ _; omega
  | succ m ih =>
    intro input c pos hfuel hc1 hcmax out lastB padOpt hpad nmf ltf hnl
    by_cases hnil : input = []
    · subst hnil
      have hempty := readAllStreams_empty
        (sel.map (fun j =>
          { rem := (streamsFrom N K B rng [] c pos).getD j [],
            nextChunkNumber := c, collectionName := nmf j,
            collectionLetter := ltf j, done := false }))
        padOpt lastB
        (by
          intro st hst
          obtain ⟨j, _, rfl⟩ := List.mem_map.mp hst
          exact streamsFrom_getD_nil N K B rng c pos j)
      rw [decodeLoop, hempty]
      have hall : ((sel.map (fun j =>
          ({ rem := (streamsFrom N K B rng [] c pos).getD j [],
             nextChunkNumber := c, collectionName := nmf j,
             collectionLetter := ltf j, done := false } : DecState))).map
          (fun st => { st with done := true })).all (fun st => st.done) = true := by
        rw [List.all_eq_true]
        intro st hst
        obtain ⟨st0, _, rfl⟩ := List.mem_map.mp hst
        rfl
      simp only [hall, if_true, List.append_nil]
    · have hd : input.take B ≠ [] := by
        have h1 : 1 ≤ input.length := List.length_pos.mpr hnil
        intro hx
        have h2 := congrArg List.length hx
        rw [List.length_take] at h2
        simp only [List.length_nil] at h2
        omega
      have hdlen : (input.take B).length ≤ int64MaxNat := by
        rw [List.length_take]
        omega
      have hselne : sel ≠ [] := by
        intro hx
        rw [hx] at hlen
        simp at hlen
        omega
      have hstates : sel.map (fun j =>
          { rem := (streamsFrom N K B rng input c pos).getD j [],
            nextChunkNumber := c, collectionName := nmf j,
            collectionLetter := ltf j, done := false })
          = sel.map (fun j =>
          { rem := recordFor N K (input.take B) rng pos c j
              ++ (streamsFrom N K B rng (input.drop B) (c + 1)
                  (genCiphers (K - 1) (padMk N K).CipherKeys (input.take B) rng pos).snd).getD j [],
            nextChunkNumber := c, collectionName := nmf j,
            collectionLetter := ltf j, done := false } : Nat → DecState) :=
        List.map_congr_left (fun j hj => by
          rw [streamsFrom_getD N K B hB rng input hnil c pos j (hselN j hj)])
      have hreadall := readAllStreams_ok N K h2 hKN hN (input.take B) hd rng pos c
        hc1 (by omega) hdlen sel hselN padOpt hpad lastB
        (fun j => (streamsFrom N K B rng (input.drop B) (c + 1)
          (genCiphers (K - 1) (padMk N K).CipherKeys (input.take B) rng pos).snd).getD j [])
        nmf ltf hnl
      have hiempty : sel.isEmpty = false := by
        cases sel with
        | nil => exact absurd rfl hselne
        | cons a l => rfl
      rw [hiempty, if_neg (by simp), if_neg (by simp)] at hreadall
      rw [decodeLoop, hstates, hreadall]
      have hall : ((sel.map (fun j =>
          { rem := (streamsFrom N K B rng (input.drop B) (c + 1)
              (genCiphers (K - 1) (padMk N K).CipherKeys (input.take B) rng pos).snd).getD j [],
            nextChunkNumber := c + 1,
            collectionName := buildCollectionLabel K N [65 + j],
            collectionLetter := [65 + j], done := false } : Nat → DecState)).all
          (fun st => st.done)) = false := by
        rw [Bool.eq_false_iff]
        intro hx
        rw [List.all_eq_true] at hx
        cases sel with
        | nil => exact hselne rfl
        | cons a l =>
          have := hx _ (List.mem_map_of_mem _ (List.mem_cons_self a l))
          simp at this
      have hany : ((sel.map (fun j =>
          { rem := (streamsFrom N K B rng (input.drop B) (c + 1)
              (genCiphers (K - 1) (padMk N K).CipherKeys (input.take B) rng pos).snd).getD j [],
            nextChunkNumber := c + 1,
            collectionName := buildCollectionLabel K N [65 + j],
            collectionLetter := [65 + j], done := false } : Nat → DecState)).any
          (fun st => st.done)) = false := by
        rw [List.any_eq_false]
        intro st hst
        obtain ⟨j, _, rfl⟩ := List.mem_map.mp hst
        simp
      have hletters : (sel.map (fun j =>
          { rem := (streamsFrom N K B rng (input.drop B) (c + 1)
              (genCiphers (K - 1) (padMk N K).CipherKeys (input.take B) rng pos).snd).getD j [],
            nextChunkNumber := c + 1,
            collectionName := buildCollectionLabel K N [65 + j],
            collectionLetter := [65 + j], done := false } : Nat → DecState)).map
          (fun st => st.collectionLetter) = sel.map (fun j => ([65 + j] : GoStr)) := by
        rw [List.map_map]
        exact List.map_congr_left (fun j _ => rfl)
      have hsorted : List.Sorted (fun a b => a ≤ b)
          (sel.map (fun j => ([65 + j] : GoStr))) :=
        List.pairwise_map.mpr (hpw.imp
          (fun h => singleton_le_of_le _ _ (by omega)))
      have hsortid : List.insertionSort (fun a b => a ≤ b)
          (sel.map (fun j => ([65 + j] : GoStr)))
          = sel.map (fun j => ([65 + j] : GoStr)) :=
        List.Sorted.insertionSort_eq hsorted
      have hlenK : (sel.map (fun j => ([65 + j] : GoStr))).length = K := by
        rw [List.length_map, hlen]
      have hguard : ¬((sel.map (fun j => ([65 + j] : GoStr))).length
          < (padMk N K).RequiredCopies) := by
        rw [hlenK]
        show ¬(K < K)
        omega
      have htake : (sel.map (fun j => ([65 + j] : GoStr))).take
          ((padMk N K).RequiredCopies) = sel.map (fun j => ([65 + j] : GoStr)) :=
        List.take_of_length_le (by
          rw [hlenK]
          show K ≤ K
          omega)
      have hflat : (sel.map (fun j => ([65 + j] : GoStr))).flatten
          = sel.map (fun j => 65 + j) := flatten_map_singleton sel (fun j => 65 + j)
      have hsub2 : (sel.map (fun j => ([65 + j] : GoStr))).Sublist
          (collectionLabels N) := by
        have h1 := (sorted_lt_sublist_range sel N hpw hselN).map
          (fun j => ([65 + j] : GoStr))
        have h2 : (List.range N).map (fun j => ([65 + j] : GoStr))
            = collectionLabels N := List.map_congr_left (fun a _ => rfl)
        rw [h2] at h1
        exact h1
      have hcombo : sel.map (fun j => ([65 + j] : GoStr)) ∈ allCombos K N :=
        (mem_combs K (collectionLabels N) _).mpr ⟨hsub2, hlenK⟩
      have hScip : sel.map (fun j => 65 + j) ∈ cipherKeys K N := by
        rw [← hflat]
        exact List.mem_map_of_mem List.flatten hcombo
      have hwalk := decodeXorLoop_walk N K h2 hKN hN (input.take B) rng pos
        (sel.map (fun j => 65 + j)) hScip
        (sel.map (fun j => some (((participating K N [65 + j]).map
          (shareOf (cipherMapFor (padMk N K) (input.take B) rng pos) (65 + j))).flatten)))
        sel 0 (List.replicate (input.take B).length 0) hselN
        (fun j hj => List.mem_map_of_mem _ hj)
        (by rw [List.drop_zero])
      obtain ⟨pads, hpadslen, hpadlens, hlook⟩ :=
        lookupCipher_genCiphers ((padMk N K).RequiredCopies - 1) (padMk N K).CipherKeys
          (input.take B) rng (sel.map (fun j => 65 + j)) hScip pos
      have htuplen : (cipherTuple (input.take B) pads).length = K := by
        rw [cipherTuple, List.length_cons, hpadslen]
        show K - 1 + 1 = K
        omega
      have hSne : List.Pairwise (fun a b => a ≠ b) (sel.map (fun j => 65 + j)) :=
        List.pairwise_map.mpr (hpw.imp (fun h => by omega))
      have hpoint : ∀ t, t < K →
          shareOf (cipherMapFor (padMk N K) (input.take B) rng pos)
            (65 + sel.getD t 0) (sel.map (fun j => 65 + j))
          = (cipherTuple (input.take B) pads).getD t [] := by
        intro t ht
        have htsel : t < sel.length := by omega
        have hgt : (sel.map (fun j => 65 + j)).getD t 0 = 65 + sel.getD t 0 := by
          have hsome : sel[t]? = some (sel.getD t 0) := by
            rw [List.getD_eq_getElem?_getD]
            cases hx : sel[t]? with
            | none =>
              have := List.getElem?_eq_none_iff.mp hx
              omega
            | some v => rfl
          rw [List.getD_eq_getElem?_getD, List.getElem?_map, hsome]
          rfl
        have hf := findIdx?_getD_pairwise (sel.map (fun j => 65 + j)) 0 hSne t
          (by rw [List.length_map]; exact htsel)
        rw [hgt] at hf
        have hlook2 : lookupCipher (cipherMapFor (padMk N K) (input.take B) rng pos)
            (sel.map (fun j => 65 + j)) = some (cipherTuple (input.take B) pads) := hlook
        rw [shareOf, hlook2, hf]
        rfl
      have hmapxor : sel.map (fun j =>
          shareOf (cipherMapFor (padMk N K) (input.take B) rng pos) (65 + j)
            (sel.map (fun j => 65 + j)))
          = cipherTuple (input.take B) pads := by
        rw [map_eq_getD_range sel _ 0]
        have h1 : (List.range sel.length).map (fun t =>
            shareOf (cipherMapFor (padMk N K) (input.take B) rng pos)
              (65 + sel.getD t 0) (sel.map (fun j => 65 + j)))
            = (List.range sel.length).map (fun t =>
              (cipherTuple (input.take B) pads).getD t []) :=
          List.map_congr_left (fun t htr => hpoint t (by
            have := List.mem_range.mp htr
            omega))
        rw [h1, hlen, ← htuplen]
        exact getD_map_range (cipherTuple (input.take B) pads)
      have hxor : List.foldl xorBytes (List.replicate (input.take B).length 0)
          (sel.map (fun j =>
            shareOf (cipherMapFor (padMk N K) (input.take B) rng pos) (65 + j)
              (sel.map (fun j => 65 + j))))
          = input.take B := by
        rw [hmapxor]
        exact cipherTuple_xor (input.take B) pads hpadlens
      have hrec := ih (input.drop B) (c + 1)
        (genCiphers (K - 1) (padMk N K).CipherKeys (input.take B) rng pos).snd
        (by
          rw [List.length_drop]
          have h1 : 1 ≤ input.length := List.length_pos.mpr hnil
          omega)
        (by omega)
        (by
          rw [List.length_drop]
          have h1 : 1 ≤ input.length := List.length_pos.mpr hnil
          omega)
        (out ++ input.take B) (input.take B).length (some (padMk N K)) (Or.inr rfl)
        (fun j => buildCollectionLabel K N [65 + j]) (fun j => [65 + j])
        (fun j _ => Or.inr ⟨rfl, rfl⟩)
      simp only [hall, hany, if_false, hletters, hsortid, hguard, htake, hflat,
        hwalk, hxor, hrec]
      rw [List.append_assoc, List.take_append_drop]
      rfl

theorem recordFor_length_ge (N K : Nat) (h2 : 2 ≤ K) (hKN : K ≤ N) (hN : N ≤ 26)
    (d : GoStr) (rng : Nat → Nat) (pos c i : Nat) (hi : i < N) :
    d.length ≤ (recordFor N K d rng pos c i).length := by
  rw [recordFor]
  simp only [List.length_cons, List.length_append]
  have hbody := bodyFor_length N K h2 hKN hN i hi d rng pos
  have hP : 1 ≤ (padMk N K).PermutationCount :=
    permutationCount_pos K N (by omega) hKN
  have : d.length * 1 ≤ d.length * (padMk N K).PermutationCount :=
    Nat.mul_le_mul_left _ hP
  omega

theorem streamsFrom_getD_length_ge (N K B : Nat) (h2 : 2 ≤ K) (hKN : K ≤ N)
    (hN : N ≤ 26) (hB : 1 ≤ B) (rng : Nat → Nat) (j : Nat) (hj : j < N) :
    ∀ (bound : Nat) (input : GoStr) (c pos : Nat), input.length ≤ bound →
    input.length ≤ ((streamsFrom N K B rng input c pos).getD j []).length := by
  intro bound
  induction bound with
  | zero =>
    intro input c pos h
    have : input = [] := List.length_eq_zero.mp (Nat.le_zero.mp h)
    subst this
    simp
  | succ m ihb =>
    intro input c pos h
    by_cases hnil : input = []
    · subst hnil
      simp
    · rw [streamsFrom_getD N K B hB rng input hnil c pos j hj]
      rw [List.length_append]
      have h1 : 1 ≤ input.length := List.length_pos.mpr hnil
      have hrec := ihb (input.drop B) (c + 1)
        (genCiphers (K - 1) (padMk N K).CipherKeys (input.take B) rng pos).snd
        (by rw [List.length_drop]; omega)
      have hfirst := recordFor_length_ge N K h2 hKN hN (input.take B) rng pos c j hj
      rw [List.length_take] at hfirst
      rw [List.length_drop] at hrec
      omega

/-- C1 (amended): encoding a message onto the N collections and decoding
from any K of them succeeds and returns the original message, provided the
K selected collections are supplied in ascending collection-letter order;
the original any-order claim fails, because Pad.Decode pairs the sorted
collection letters with the chunk shares by stream position. -/
theorem roundtrip_ascending_selection (N K oc : Nat) (h2 : 2 ≤ K) (hKN : K ≤ N)
    (hN : N ≤ 26) (hB : 1 ≤ oc / (padMk N K).PermutationCount)
    (hoc : oc ≤ int64MaxNat) (input : GoStr)
    (hin : 1 + input.length ≤ int64MaxNat)
    (rng : Nat → Nat) (ce : GoStr → Nat → Bool) (p0 : Pad)
    (sel : List Nat) (hlen : sel.length = K)
    (hpw : List.Pairwise (fun a b => a < b) sel) (hselN : ∀ j ∈ sel, j < N) :
    ∃ outs : List GoStr,
      PadEncode (padMk N K) oc input rng ce = some (Except.ok outs) ∧
      PadDecode p0 (sel.map (fun j => outs.getD j [])) = some (Except.ok input) := by
  refine ⟨streamsFrom N K (oc / (padMk N K).PermutationCount) rng input 1 0,
    PadEncode_ok N K oc h2 hKN hN hB input rng ce, ?_⟩
  have hBmax : oc / (padMk N K).PermutationCount ≤ int64MaxNat :=
    le_trans (Nat.div_le_self _ _) hoc
  have hfuel : input.length
      < ((sel.map (fun j =>
          (streamsFrom N K (oc / (padMk N K).PermutationCount) rng input 1 0).getD j [])).headD
        []).length + 1 := by
    cases sel with
    | nil =>
      rw [← hlen] at h2
      simp at h2
    | cons j0 rest =>
      have hj0 : j0 < N := hselN j0 (List.mem_cons_self _ _)
      have := streamsFrom_getD_length_ge N K (oc / (padMk N K).PermutationCount)
        h2 hKN hN hB rng j0 hj0 input.length input 1 0 (le_refl _)
      simp only [List.map_cons, List.headD_cons]
      omega
  have hmain := decodeLoop_ok N K (oc / (padMk N K).PermutationCount) h2 hKN hN hB
    hBmax rng p0 sel hlen hpw hselN
    ((sel.map (fun j =>
      (streamsFrom N K (oc / (padMk N K).PermutationCount) rng input 1 0).getD j [])).headD
        []).length.succ
    input 1 0 hfuel (le_refl 1) (by omega) [] 0 none (Or.inl rfl)
    (fun _ => []) (fun _ => []) (fun j _ => Or.inl ⟨rfl, rfl⟩)
  rw [PadDecode, List.map_map]
  rw [List.nil_append] at hmain
  exact hmain

theorem roundtrip_ascending_selection_witness :
    ∃ outs : List GoStr,
      PadEncode (padMk 2 2) 1 [104] (fun i => i + 5) (fun _ _ => false)
        = some (Except.ok outs) ∧
      PadDecode (padMk 2 2) ([0, 1].map (fun j => outs.getD j []))
        = some (Except.ok [104]) :=
  roundtrip_ascending_selection 2 2 1 (by decide) (by decide) (by decide)
    (by decide) (by decide) [104] (by decide) (fun i => i + 5) (fun _ _ => false)
    (padMk 2 2) [0, 1] rfl (by decide) (by decide)

/-- C1 (counterexample): with N = 3, K = 2, a one-byte message and a fixed
random stream, handing Pad.Decode the collections C and A in that
descending order returns the wrong byte: the sorted collection letters are
paired with the chunk shares by stream position, so the A-row share is read
from the C stream and vice versa. -/
theorem roundtrip_any_order_counterexample :
    PadEncode (padMk 3 2) 2 [1] (fun i => i + 1) (fun _ _ => false)
      = some (Except.ok [[7, 50, 65, 51, 58, 49, 58, 49, 0, 3],
          [7, 50, 66, 51, 58, 49, 58, 49, 1, 2],
          [7, 50, 67, 51, 58, 49, 58, 49, 2, 3]])
    ∧ PadDecode (padMk 3 2) [[7, 50, 67, 51, 58, 49, 58, 49, 2, 3],
          [7, 50, 65, 51, 58, 49, 58, 49, 0, 3]]
      = some (Except.ok [3])
    ∧ ([3] : GoStr) ≠ [1] := by
  refine ⟨rfl, rfl, by decide⟩

/-- C4: Pad.Decode returns success when only some streams are at EOF
(pad.go lines 1338 to 1345 return nil both when all streams and when just
one stream is done): decoding a complete two-chunk stream paired with a
stream truncated to its first record silently returns the first chunk only,
with no ErrUnevenCollections, while the complete pair decodes to both
bytes. -/
theorem uneven_streams_decode_succeeds :
    PadDecode (padMk 2 2)
      [[7, 50, 65, 50, 58, 49, 58, 49, 6, 7, 50, 65, 50, 58, 50, 58, 49, 10],
       [7, 50, 66, 50, 58, 49, 58, 49, 7]]
      = some (Except.ok [1])
    ∧ PadDecode (padMk 2 2)
      [[7, 50, 65, 50, 58, 49, 58, 49, 6, 7, 50, 65, 50, 58, 50, 58, 49, 10],
       [7, 50, 66, 50, 58, 49, 58, 49, 7, 7, 50, 66, 50, 58, 50, 58, 49, 8]]
      = some (Except.ok [1, 2]) :=
  ⟨rfl, rfl⟩

theorem recordBytes_ce (p : Pad) (cm : List (GoStr × List GoStr))
    (collName : GoStr) (c b : Nat) (ce ceq : GoStr → Nat → Bool) :
    recordBytes p cm collName c b ce = recordBytes p cm collName c b ceq := rfl

theorem buildAllRecords_ce (p : Pad) (cm : List (GoStr × List GoStr))
    (c b : Nat) (ce ceq : GoStr → Nat → Bool) :
    ∀ labels, buildAllRecords p cm c b ce labels
      = buildAllRecords p cm c b ceq labels := by
  intro labels
  induction labels with
  | nil => rfl
  | cons l rest ih =>
    simp only [buildAllRecords]
    rw [recordBytes_ce p cm l c b ce ceq, ih]

theorem encodeOneChunk_ce (p : Pad) (rng : Nat → Nat) (ce ceq : GoStr → Nat → Bool) :
    ∀ (d : GoStr) (c pos : Nat),
    encodeOneChunk p d c rng pos ce = encodeOneChunk p d c rng pos ceq := by
  intro d c pos
  simp only [encodeOneChunk]
  rw [buildAllRecords_ce]

theorem encodeLoop_ce (p : Pad) (B : Nat) (rng : Nat → Nat)
    (ce ceq : GoStr → Nat → Bool) :
    ∀ (fuel : Nat) (input : GoStr) (ci pos : Nat) (acc : List GoStr),
    encodeLoop p B rng ce fuel input ci pos acc
      = encodeLoop p B rng ceq fuel input ci pos acc := by
  intro fuel
  induction fuel with
  | zero => intro input ci pos acc; rfl
  | succ m ih =>
    intro input ci pos acc
    simp only [encodeLoop]
    rw [encodeOneChunk_ce p rng ce ceq]
    simp only [ih]

/-- C9: the encoder discards the value Close returns on every chunk sink
(pad.go line 1169 drops the error of w.Close), so Pad.Encode computes the
same result whatever close errors the sinks report; a failing Close is
never surfaced as an encode error. -/
theorem close_error_never_propagates (p : Pad) (oc : Nat) (input : GoStr)
    (rng : Nat → Nat) (ce ceq : GoStr → Nat → Bool) :
    PadEncode p oc input rng ce = PadEncode p oc input rng ceq := by
  simp only [PadEncode]
  rw [encodeLoop_ce]

end Padlock
